import Mathlib

/-!
# Verification of the FlowRMS reconciliation core

Shallow embedding of the reconciliation matching engine and the idempotent
bank-transaction import of the repository (files
`app/services/reconciliation_service.py`, `app/services/bank_transaction_service.py`,
`app/services/idempotency_service.py`, `app/services/invoice_service.py` and the
model files under `app/models/`).

Modelling conventions:
* Python `Decimal` values are modelled by exact rationals `ℚ`.  Every `Decimal`
  value occurring in the scoring pipeline has few enough significant digits
  that the 28-digit context of `decimal` computes it exactly, so the rational
  model agrees with the source on all reachable inputs.
  `Decimal.quantize(Decimal("0.01"))` (default rounding `ROUND_HALF_EVEN`)
  is modelled by `quantize2`.
* Python `datetime` values are modelled as whole minutes since an epoch;
  `timedelta.days` is floor division by `1440` (`Int.fdiv`), matching Python's
  floor semantics for timedeltas.
* Python `float` arithmetic inside `difflib.SequenceMatcher.ratio` is modelled
  by exact rationals.
* The SQLAlchemy session is modelled by explicit state passing over a `DB`
  record; a raised `ValueError` (mapped to HTTP 409/404 in the REST layer)
  becomes `Except.error`.  All raising paths of the source raise before any
  mutation is committed, so an `Except.error` result leaves the state as it was.
-/

namespace FlowRMS

/-! ## Kernel-computable rational arithmetic

The `Rat` arithmetic of the standard library is `@[irreducible]`, which keeps
`decide`/`rfl` from evaluating concrete scores in the kernel.  The embedding
therefore uses its own structurally reducible wrappers, proved equal to the
ordinary operations below (`qadd_eq` …), so symbolic proofs can rewrite to
ordinary `ℚ` arithmetic while concrete witnesses still evaluate. -/

def qadd (a b : ℚ) : ℚ := mkRat (a.num * b.den + b.num * a.den) (a.den * b.den)

def qsub (a b : ℚ) : ℚ := mkRat (a.num * b.den - b.num * a.den) (a.den * b.den)

def qmul (a b : ℚ) : ℚ := mkRat (a.num * b.num) (a.den * b.den)

def qdiv (a b : ℚ) : ℚ := Rat.divInt (a.num * b.den) (a.den * b.num)

/-! ## Decimal rounding: `score.quantize(Decimal("0.01"))` with ROUND_HALF_EVEN -/

/-- Round a rational to the nearest integer, ties to the even integer
(Python `decimal`'s default `ROUND_HALF_EVEN`). -/
def roundHalfEvenInt (q : ℚ) : ℤ :=
  let f : ℤ := q.floor
  let frac : ℚ := qsub q (f : ℚ)
  if frac < mkRat 1 2 then f
  else if mkRat 1 2 < frac then f + 1
  else if f % 2 = 0 then f else f + 1

/-- `Decimal.quantize(Decimal("0.01"))`: round to two decimal places, half-even. -/
def quantize2 (q : ℚ) : ℚ := qdiv (roundHalfEvenInt (qmul q 100) : ℚ) 100

/-! ## `difflib.SequenceMatcher` (no junk: inputs here are far below the
autojunk threshold of 200 elements)

`wsuf a b alo blo i j` is the length of the longest common suffix of
`a[alo..i]` and `b[blo..j]` ending exactly at positions `i` and `j` — the
quantity difflib's `find_longest_match` maintains in its `j2len` map. -/

def wsuf (a b : List Char) (alo blo : Nat) : Nat → Nat → Nat
  | 0, j => if (a[0]?).isSome ∧ a[0]? = b[j]? then 1 else 0
  | i+1, 0 => if (a[i+1]?).isSome ∧ a[i+1]? = b[0]? then 1 else 0
  | i+1, j+1 =>
    if (a[i+1]?).isSome ∧ a[i+1]? = b[j+1]? then
      if i + 1 ≤ alo ∨ j + 1 ≤ blo then 1
      else wsuf a b alo blo i j + 1
    else 0

/-- State of `find_longest_match`'s best-so-far: block start in `a`, block
start in `b`, block size. -/
structure FLM where
  besti : Nat
  bestj : Nat
  bestk : Nat
deriving DecidableEq, Repr

/-- One candidate end position `(i, j)`: difflib updates its best block only on
a strictly larger size, so the first maximal block in scan order wins. -/
def flmStep (a b : List Char) (alo blo : Nat) (st : FLM) (i j : Nat) : FLM :=
  let k := wsuf a b alo blo i j
  if st.bestk < k then ⟨i + 1 - k, j + 1 - k, k⟩ else st

/-- `SequenceMatcher.find_longest_match(alo, ahi, blo, bhi)`: scan all end
positions in lexicographic order, as the source's nested loops do. -/
def findLongestMatch (a b : List Char) (alo ahi blo bhi : Nat) : FLM :=
  (List.range' alo (ahi - alo)).foldl
    (fun st i => (List.range' blo (bhi - blo)).foldl (fun st' j => flmStep a b alo blo st' i j) st)
    ⟨alo, blo, 0⟩

/-- Total size of all matching blocks (`sum of block sizes` in
`get_matching_blocks`): recursively split around the longest match.  The fuel
only bounds the recursion depth; `a.length + 1` always suffices because each
split strictly shrinks the `a`-window. -/
def matchTotal (a b : List Char) : Nat → Nat → Nat → Nat → Nat → Nat
  | 0, _, _, _, _ => 0
  | fuel+1, alo, ahi, blo, bhi =>
    let r := findLongestMatch a b alo ahi blo bhi
    if r.bestk = 0 then 0
    else
      matchTotal a b fuel alo r.besti blo r.bestj + r.bestk +
        matchTotal a b fuel (r.besti + r.bestk) ahi (r.bestj + r.bestk) bhi

/-- `SequenceMatcher.ratio()`: `2.0 * M / T`, and `1.0` when both sequences are
empty (difflib's `_calculate_ratio`). -/
def smRatio (a b : List Char) : ℚ :=
  let T := a.length + b.length
  if T = 0 then 1
  else qdiv (qmul 2 (matchTotal a b (a.length + 1) 0 a.length 0 b.length : ℚ)) (T : ℚ)

/-! ## Data model (`app/models/invoice.py`, `bank_transaction.py`, `match.py`) -/

inductive InvoiceStatus where
  | open | matched | paid
deriving DecidableEq, Repr

inductive MatchStatus where
  | proposed | confirmed | rejected
deriving DecidableEq, Repr

/-- A row of `invoices` (with the linked vendor's name inlined, which is all
the scorer reads from the relationship). -/
structure InvoiceRec where
  id : Nat
  tenant_id : Nat
  vendor_name : Option String
  invoice_number : Option String
  amount : ℚ
  currency : String
  invoice_date : Option Int
  description : Option String
  status : InvoiceStatus
deriving DecidableEq, Repr

/-- A row of `bank_transactions`.  `posted_at` is kept optional because the
scorer guards on its truthiness. -/
structure TxnRec where
  id : Nat
  tenant_id : Nat
  external_id : Option String
  posted_at : Option Int
  amount : ℚ
  currency : String
  description : Option String
deriving DecidableEq, Repr

/-- A row of `matches`. -/
structure MatchRec where
  id : Nat
  tenant_id : Nat
  invoice_id : Nat
  bank_transaction_id : Nat
  score : ℚ
  status : MatchStatus
deriving DecidableEq, Repr

/-! ## Match scorer (`ReconciliationService._calculate_match_score`,
`_text_similarity_score`) -/

def EXACT_AMOUNT_WEIGHT : ℚ := 50
def AMOUNT_TOLERANCE_WEIGHT : ℚ := 30
def DATE_PROXIMITY_WEIGHT : ℚ := 15
def TEXT_SIMILARITY_WEIGHT : ℚ := 5
def AMOUNT_TOLERANCE : ℚ := mkRat 1 100
def DATE_TOLERANCE_DAYS : Nat := 3
def MIN_SCORE_THRESHOLD : ℚ := 20

/-- Entries of the `reasons` list.  The source appends interpolated strings;
each constructor corresponds injectively to one of them, carrying the
interpolated value. -/
inductive Reason where
  /-- `"exact amount match"` -/
  | exactAmount
  /-- `f"amount within tolerance ({amount_diff})"` -/
  | amountWithinTolerance (d : ℚ)
  /-- `"amount mismatch"` -/
  | amountMismatch
  /-- `f"date within {date_diff} days"` -/
  | dateWithin (days : Nat)
  /-- `f"date difference {date_diff} days"` -/
  | dateDifference (days : Nat)
  /-- `"text similarity match"` -/
  | textSimilarity
deriving DecidableEq, Repr

/-- `(invoice.invoice_date - transaction.posted_at).days`: minutes difference,
floor-divided into days as Python timedeltas do. -/
def tdDays (i p : Int) : Int := Int.fdiv (i - p) 1440

/-- Python `str.lower()` on the character list (the repository only feeds it
ASCII identifiers and descriptions). -/
def lowerL (s : String) : List Char := s.toList.map Char.toLower

/-- The `invoice_text` built by `_text_similarity_score`: lower-cased
invoice number, description and vendor name, the latter two prefixed by a
space, each skipped when falsy (absent or empty). -/
def invoiceText (inv : InvoiceRec) : List Char :=
  let t1 :=
    match inv.invoice_number with
    | some s => if s.toList ≠ [] then lowerL s else []
    | none => []
  let t2 :=
    match inv.description with
    | some s => if s.toList ≠ [] then t1 ++ [' '] ++ lowerL s else t1
    | none => t1
  match inv.vendor_name with
  | some s => if s.toList ≠ [] then t2 ++ [' '] ++ lowerL s else t2
  | none => t2

/-- The `transaction_text`: `(transaction.description or "").lower()`. -/
def transactionText (tx : TxnRec) : List Char := lowerL (tx.description.getD "")

/-- Python's substring test `small in big` on strings, as character lists. -/
def containsSub (big small : List Char) : Bool :=
  (List.range (big.length + 1)).any fun i => small.isPrefixOf (big.drop i)

/-- `_text_similarity_score`: 0 when either text is empty, otherwise the
SequenceMatcher ratio, floored at 0.8 when one text contains the other. -/
def textSimilarityScore (inv : InvoiceRec) (tx : TxnRec) : ℚ :=
  let it := invoiceText inv
  let tt := transactionText tx
  if it = [] ∨ tt = [] then 0
  else
    let similarity := smRatio it tt
    if containsSub tt it ∨ containsSub it tt then
      max similarity (mkRat 4 5)
    else similarity

/-- Amount factor of `_calculate_match_score` (lines 85-94): contribution and
appended reasons. -/
def amountTerm (inv : InvoiceRec) (tx : TxnRec) : ℚ × List Reason :=
  let amount_diff := |qsub inv.amount tx.amount|
  if amount_diff = 0 then
    (EXACT_AMOUNT_WEIGHT, [Reason.exactAmount])
  else if amount_diff ≤ AMOUNT_TOLERANCE then
    (qmul AMOUNT_TOLERANCE_WEIGHT (qsub 1 (qdiv amount_diff AMOUNT_TOLERANCE)),
     [Reason.amountWithinTolerance amount_diff])
  else
    (0, [Reason.amountMismatch])

/-- Date factor of `_calculate_match_score` (lines 96-103): only when both
dates are present; otherwise contributes 0 with no reason entry. -/
def dateTerm (inv : InvoiceRec) (tx : TxnRec) : ℚ × List Reason :=
  match inv.invoice_date, tx.posted_at with
  | some d1, some d2 =>
    let date_diff := (tdDays d1 d2).natAbs
    if date_diff ≤ DATE_TOLERANCE_DAYS then
      (qmul DATE_PROXIMITY_WEIGHT (qsub 1 (qdiv (date_diff : ℚ) (DATE_TOLERANCE_DAYS : ℚ))),
       [Reason.dateWithin date_diff])
    else
      (0, [Reason.dateDifference date_diff])
  | _, _ => (0, [])

/-- Text factor of `_calculate_match_score` (lines 105-108). -/
def textTerm (inv : InvoiceRec) (tx : TxnRec) : ℚ × List Reason :=
  let text_score := textSimilarityScore inv tx
  if 0 < text_score then
    (qmul TEXT_SIMILARITY_WEIGHT text_score, [Reason.textSimilarity])
  else (0, [])

/-- `_calculate_match_score`: sum of the three factors, capped at 100 and
quantized to two decimals, with the collected reasons.  (The source's
`"low confidence match"` fallback is dead: the amount branch always appends.) -/
def calculateMatchScore (inv : InvoiceRec) (tx : TxnRec) : ℚ × List Reason :=
  let a := amountTerm inv tx
  let d := dateTerm inv tx
  let t := textTerm inv tx
  let score := min (qadd (qadd a.1 d.1) t.1) 100
  (quantize2 score, a.2 ++ d.2 ++ t.2)

/-! ## Database state

One record models the SQLAlchemy session/store: table contents plus the
autoincrement counters that hand out primary keys at commit time. -/

/-- A validated `BankTransactionCreate` payload item (`app/schemas/bank_transaction.py`):
`external_id` is `none` or a stripped non-empty string, `amount > 0`,
`currency` stripped upper-cased non-empty, `description` `none` or stripped
non-empty.  The validators are not re-modelled; claims quantify over already
validated items. -/
structure TxnCreate where
  external_id : Option String
  posted_at : Int
  amount : ℚ
  currency : String
  description : Option String
deriving DecidableEq, Repr

/-- A row of `idempotency_records`.  The SHA-256 `payload_hash` is modelled by
the canonical serialization it hashes (the normalized item list itself): the
source only ever compares hashes for equality, so any injective stand-in for
`hash_payload` is faithful; `result_data` always holds
`{"transaction_ids": [...]}`, kept here as the id list. -/
structure IdemRecord where
  tenant_id : Nat
  key : String
  payload_hash : List TxnCreate
  result_ids : List Nat
deriving DecidableEq, Repr

/-- The store. -/
structure DB where
  invoices : List InvoiceRec
  transactions : List TxnRec
  /-- the `matches` table (`matches` is reserved syntax in Lean) -/
  matchRows : List MatchRec
  idemRecords : List IdemRecord
  nextTxnId : Nat
  nextMatchId : Nat
deriving DecidableEq, Repr

/-- Errors surfaced by the services (`ValueError` variants; the REST layer maps
the first to 404 and the others to 409/500). -/
inductive ServiceError where
  /-- `"Match not found or already processed"` -/
  | notFound
  /-- `"Idempotency key reused with different payload"` -/
  | conflict
  /-- `"Failed to import transactions: ..."` after a rollback -/
  | persistence
deriving DecidableEq, Repr

/-! ## Reconciliation orchestrator (`ReconciliationService.reconcile`) -/

/-- One row of the `candidates` list (`MatchCandidate` in `app/schemas/match.py`). -/
structure Candidate where
  invoice_id : Nat
  bank_transaction_id : Nat
  score : ℚ
  reason : List Reason
deriving DecidableEq, Repr

/-- `ReconciliationResponse`. -/
structure ReconResponse where
  candidates : List Candidate
  total_invoices : Nat
  total_transactions : Nat
  matches_found : Nat
deriving DecidableEq, Repr

/-- `InvoiceService.get_open_invoices`: tenant's invoices with status OPEN. -/
def getOpenInvoices (db : DB) (tenant : Nat) : List InvoiceRec :=
  db.invoices.filter fun i => decide (i.tenant_id = tenant ∧ i.status = InvoiceStatus.open)

/-- `BankTransactionService.get_unmatched_transactions`: tenant's transactions
with no CONFIRMED match. -/
def getUnmatchedTransactions (db : DB) (tenant : Nat) : List TxnRec :=
  db.transactions.filter fun t =>
    decide (t.tenant_id = tenant) &&
    !(db.matchRows.any fun m =>
        decide (m.tenant_id = tenant ∧ m.status = MatchStatus.confirmed ∧
          m.bank_transaction_id = t.id))

/-- Python dict assignment `d[k] = v`: update in place when the key exists
(keeping its position), else append. -/
def dictInsert (k : Nat) (v : Candidate) : List (Nat × Candidate) → List (Nat × Candidate)
  | [] => [(k, v)]
  | (k', v') :: rest => if k = k' then (k, v) :: rest else (k', v') :: dictInsert k v rest

/-- Python dict lookup. -/
def dictFind (k : Nat) (d : List (Nat × Candidate)) : Option Candidate :=
  (d.find? fun kv => kv.1 == k).map (·.2)

/-- The `MatchCandidate` built at lines 40-46: the score is re-quantized
(`rounded_score`), which is idempotent since `_calculate_match_score` already
quantized it (`mkCand_score`). -/
def mkCand (inv : InvoiceRec) (t : TxnRec) : Candidate :=
  ⟨inv.id, t.id, quantize2 (calculateMatchScore inv t).1, (calculateMatchScore inv t).2⟩

/-- The body of `reconcile`'s inner loop for one `(invoice, transaction)` pair
(lines 33-49): skip on differing currency, score, threshold, keep the best
per invoice.  The update guard compares the incoming raw score against the
stored candidate's (re-quantized) score, as the source does; strict
improvement only, so the first of a tie stays. -/
def considerTxn (inv : InvoiceRec) (bm : List (Nat × Candidate)) (t : TxnRec) :
    List (Nat × Candidate) :=
  if inv.currency ≠ t.currency then bm
  else if MIN_SCORE_THRESHOLD ≤ (calculateMatchScore inv t).1 then
    match dictFind inv.id bm with
    | none => dictInsert inv.id (mkCand inv t) bm
    | some best =>
      if best.score < (calculateMatchScore inv t).1 then dictInsert inv.id (mkCand inv t) bm
      else bm
  else bm

/-- The nested loops of `reconcile` building `best_matches`. -/
def bestMatches (invoices : List InvoiceRec) (txns : List TxnRec) :
    List (Nat × Candidate) :=
  invoices.foldl (fun bm inv => txns.foldl (considerTxn inv) bm) []

/-- The pairs on which `reconcile` actually invokes
`_calculate_match_score`: all (open invoice, unmatched transaction) pairs
that pass the same-currency guard. -/
def scoredPairs (invoices : List InvoiceRec) (txns : List TxnRec) :
    List (InvoiceRec × TxnRec) :=
  invoices.flatMap fun inv =>
    (txns.filter fun t => inv.currency == t.currency).map fun t => (inv, t)

/-- Persistence step of `reconcile` (lines 53-68): insert a PROPOSED match for
the candidate unless a match for the same (tenant, invoice, transaction)
triple already exists. -/
def insertProposed (tenant : Nat) (st : List MatchRec × Nat) (c : Candidate) :
    List MatchRec × Nat :=
  if st.1.any fun m =>
      decide (m.tenant_id = tenant ∧ m.invoice_id = c.invoice_id ∧
        m.bank_transaction_id = c.bank_transaction_id) then st
  else
    (st.1 ++ [⟨st.2, tenant, c.invoice_id, c.bank_transaction_id, c.score, MatchStatus.proposed⟩],
     st.2 + 1)

/-- `ReconciliationService.reconcile`. -/
def reconcile (db : DB) (tenant : Nat) : DB × ReconResponse :=
  let invoices := getOpenInvoices db tenant
  let txns := getUnmatchedTransactions db tenant
  let candidates := (bestMatches invoices txns).map (·.2)
  let st := candidates.foldl (insertProposed tenant) (db.matchRows, db.nextMatchId)
  ({ db with matchRows := st.1, nextMatchId := st.2 },
   ⟨candidates, invoices.length, txns.length, candidates.length⟩)

/-! ## Match lifecycle (`ReconciliationService.confirm_match`) -/

/-- `confirm_match`: find the PROPOSED match by id and tenant; on success flip
it to CONFIRMED and the associated invoice (looked up by id alone, as the
source does) to MATCHED, in the same commit. -/
def confirmMatch (db : DB) (tenant mid : Nat) : Except ServiceError (DB × MatchRec) :=
  match db.matchRows.find? fun m =>
      decide (m.id = mid ∧ m.tenant_id = tenant ∧ m.status = MatchStatus.proposed) with
  | none => Except.error ServiceError.notFound
  | some m =>
    let matches' := db.matchRows.map fun x =>
      if x.id = m.id then { x with status := MatchStatus.confirmed } else x
    let invoices' :=
      match db.invoices.find? fun i => decide (i.id = m.invoice_id) with
      | some _ => db.invoices.map fun i =>
          if i.id = m.invoice_id then { i with status := InvoiceStatus.matched } else i
      | none => db.invoices
    Except.ok ({ db with matchRows := matches', invoices := invoices' },
      { m with status := MatchStatus.confirmed })

/-! ## Idempotency ledger (`IdempotencyService`) -/

/-- `IdempotencyService.hash_payload`: SHA-256 over the canonical (sorted-key
JSON) serialization of the normalized item list.  Modelled by the canonical
payload itself — the source only compares hashes for equality. -/
def hashPayload (items : List TxnCreate) : List TxnCreate := items

/-- `IdempotencyService.get_payload_hash`. -/
def getPayloadHash (db : DB) (tenant : Nat) (key : String) : Option (List TxnCreate) :=
  (db.idemRecords.find? fun r => decide (r.tenant_id = tenant ∧ r.key = key)).map
    (·.payload_hash)

/-- `IdempotencyService.get_result`, projected to the stored
`transaction_ids` list (the only field ever stored or read). -/
def getResult (db : DB) (tenant : Nat) (key : String) : Option (List Nat) :=
  (db.idemRecords.find? fun r => decide (r.tenant_id = tenant ∧ r.key = key)).map
    (·.result_ids)

/-- `IdempotencyService.store_result`: update the existing `(tenant, key)`
record in place, else insert a new one. -/
def storeResult (db : DB) (tenant : Nat) (key : String) (h : List TxnCreate)
    (ids : List Nat) : DB :=
  if db.idemRecords.any fun r => decide (r.tenant_id = tenant ∧ r.key = key) then
    { db with idemRecords := db.idemRecords.map fun r =>
        if r.tenant_id = tenant ∧ r.key = key then
          { r with payload_hash := h, result_ids := ids }
        else r }
  else
    { db with idemRecords := db.idemRecords ++ [⟨tenant, key, h, ids⟩] }

/-! ## Transaction ingestion (`BankTransactionService.import_transactions`) -/

/-- The replay short-circuit (lines 31-45): a stored result whose non-empty id
list resolves to equally many tenant rows yields those rows. -/
def replayCheck (db : DB) (tenant : Nat) (k : String) : Option (List TxnRec) :=
  match getResult db tenant k with
  | none => none
  | some ids =>
    if ids = [] then none
    else
      let rows := db.transactions.filter fun t =>
        ids.contains t.id && decide (t.tenant_id = tenant)
      if rows.length = ids.length then some rows else none

/-- Per-item natural-key dedup (lines 51-57): look up an existing row by
`(tenant, external_id)` in the committed table. -/
def dedupItem (table : List TxnRec) (tenant : Nat) (item : TxnCreate) : Option TxnRec :=
  match item.external_id with
  | some e => table.find? fun t => decide (t.tenant_id = tenant ∧ t.external_id = some e)
  | none => none

/-- Result of the per-item loop (lines 47-71): the `created_transactions`
list, the pending `new_transactions_to_add`, and the autoincrement counter
after assigning ids to the pending rows in order. -/
structure LoopOut where
  created : List TxnRec
  newRows : List TxnRec
  nextId : Nat
deriving DecidableEq, Repr

/-- One iteration of the per-item loop: reuse the committed row found by the
natural key, or stage a fresh row (which receives the next id at commit). -/
def importStep (table : List TxnRec) (tenant : Nat) (st : LoopOut) (item : TxnCreate) :
    LoopOut :=
  match dedupItem table tenant item with
  | some ex => { st with created := st.created ++ [ex] }
  | none =>
    ⟨st.created ++ [⟨st.nextId, tenant, item.external_id, some item.posted_at,
        item.amount, item.currency, item.description⟩],
     st.newRows ++ [⟨st.nextId, tenant, item.external_id, some item.posted_at,
        item.amount, item.currency, item.description⟩],
     st.nextId + 1⟩

/-- The per-item loop.  The dedup query sees only the committed table (pending
rows are not yet in the session), exactly as in the source. -/
def importLoop (table : List TxnRec) (tenant : Nat) (nid0 : Nat)
    (items : List TxnCreate) : LoopOut :=
  items.foldl (importStep table tenant) ⟨[], [], nid0⟩

/-- The unique index `ix_tenant_external_id` rejecting the commit: some pending
row collides on `(tenant, external_id)` with the table or a sibling pending
row. -/
def extConflict (table newRows : List TxnRec) : Bool :=
  newRows.any fun r =>
    r.external_id.isSome &&
    ((table.any fun t => decide (t.tenant_id = r.tenant_id ∧ t.external_id = r.external_id)) ||
     (newRows.any fun t =>
        decide (t.id ≠ r.id ∧ t.tenant_id = r.tenant_id ∧ t.external_id = r.external_id)))

/-- `BankTransactionService.import_transactions`.  Returns the new store, the
returned rows and the `is_duplicate`/`replayed` flag; `Except.error` models the
raised `ValueError`s, each of which occurs before anything is committed (the
failed commit of line 92 is rolled back), so an error leaves the store as it
was.  The swallowed exceptions around `store_result` (lines 80-84, 107-111,
117-121) are modelled as the successful path. -/
def importTransactions (db : DB) (tenant : Nat) (items : List TxnCreate)
    (key : Option String) : Except ServiceError (DB × List TxnRec × Bool) :=
  let payloadHash := hashPayload items
  let conflictEarly : Bool :=
    match key with
    | some k =>
      match getPayloadHash db tenant k with
      | some sh => decide (sh ≠ payloadHash)
      | none => false
    | none => false
  if conflictEarly then Except.error ServiceError.conflict
  else
    let replay := match key with
      | some k => replayCheck db tenant k
      | none => none
    match replay with
    | some rows => Except.ok (db, rows, true)
    | none =>
      let lo := importLoop db.transactions tenant db.nextTxnId items
      match key with
      | some k =>
        if lo.newRows = [] ∧ lo.created ≠ [] then
          -- lines 73-85: nothing to insert, everything deduped: re-check the
          -- stored hash, record the result, report `is_duplicate = True`
          match getPayloadHash db tenant k with
          | some sh =>
            if sh ≠ payloadHash then Except.error ServiceError.conflict
            else
              Except.ok (storeResult db tenant k payloadHash (lo.created.map (·.id)),
                lo.created, true)
          | none =>
            Except.ok (storeResult db tenant k payloadHash (lo.created.map (·.id)),
              lo.created, true)
        else
          if lo.newRows ≠ [] ∧ extConflict db.transactions lo.newRows then
            Except.error ServiceError.persistence
          else
            let db1 : DB :=
              { db with transactions := db.transactions ++ lo.newRows, nextTxnId := lo.nextId }
            let db2 :=
              if lo.newRows ≠ [] then
                storeResult db1 tenant k payloadHash (lo.created.map (·.id))
              else
                -- here `created = []` as well: line 112's branch
                if (getPayloadHash db1 tenant k).isNone then
                  storeResult db1 tenant k payloadHash (lo.created.map (·.id))
                else db1
            Except.ok (db2, lo.created, false)
      | none =>
        if lo.newRows ≠ [] ∧ extConflict db.transactions lo.newRows then
          Except.error ServiceError.persistence
        else
          let db1 : DB :=
            { db with transactions := db.transactions ++ lo.newRows, nextTxnId := lo.nextId }
          Except.ok (db1, lo.created, false)

/-! ## Auxiliary predicates and reference folds used by the theorems -/

/-- The best-block invariant maintained by `find_longest_match`: a nonempty
best block lies inside the window. -/
def FLMok (alo ahi blo bhi : Nat) (st : FLM) : Prop :=
  0 < st.bestk →
    alo ≤ st.besti ∧ st.besti + st.bestk ≤ ahi ∧ blo ≤ st.bestj ∧ st.bestj + st.bestk ≤ bhi

/-- A transaction that survives for an invoice: same currency and a score at
or above the 20.00 threshold. -/
def surviving (inv : InvoiceRec) (t : TxnRec) : Prop :=
  inv.currency = t.currency ∧ MIN_SCORE_THRESHOLD ≤ (calculateMatchScore inv t).1

instance (inv : InvoiceRec) (t : TxnRec) : Decidable (surviving inv t) := by
  unfold surviving
  infer_instance

/-- The inner-loop body restricted to one invoice: what `considerTxn` does to
the `best_matches` entry of that invoice. -/
def perInvoiceStep (inv : InvoiceRec) (acc : Option Candidate) (t : TxnRec) :
    Option Candidate :=
  if inv.currency ≠ t.currency then acc
  else if MIN_SCORE_THRESHOLD ≤ (calculateMatchScore inv t).1 then
    match acc with
    | none => some (mkCand inv t)
    | some best =>
      if best.score < (calculateMatchScore inv t).1 then some (mkCand inv t) else acc
  else acc

/-- The loop body applied to an already currency-filtered pair: scoring
happens unconditionally here.  `bestMatches` factors through this fold over
`scoredPairs` (theorem `bestMatches_eq_scoredPairs`), which is how the model
expresses that the scorer is only ever invoked on same-currency pairs. -/
def considerScored (bm : List (Nat × Candidate)) (p : InvoiceRec × TxnRec) :
    List (Nat × Candidate) :=
  if MIN_SCORE_THRESHOLD ≤ (calculateMatchScore p.1 p.2).1 then
    match dictFind p.1.id bm with
    | none => dictInsert p.1.id (mkCand p.1 p.2) bm
    | some best =>
      if best.score < (calculateMatchScore p.1 p.2).1 then dictInsert p.1.id (mkCand p.1 p.2) bm
      else bm
  else bm

/-- Running characterization of the per-invoice fold: after the processed
prefix, either nothing survived yet, or the entry holds the candidate of the
first transaction achieving the maximum score over the prefix. -/
def argmaxInv (inv : InvoiceRec) (processed : List TxnRec) (acc : Option Candidate) : Prop :=
  (acc = none ∧ ∀ t ∈ processed, ¬ surviving inv t) ∨
  (∃ pre t post, processed = pre ++ t :: post ∧ surviving inv t ∧
    acc = some (mkCand inv t) ∧
    (∀ t' ∈ processed, surviving inv t' →
      (calculateMatchScore inv t').1 ≤ (calculateMatchScore inv t).1) ∧
    (∀ t' ∈ pre, surviving inv t' →
      (calculateMatchScore inv t').1 < (calculateMatchScore inv t).1))

/-- No two rows share a (tenant, invoice, transaction) triple — the unique
index `ix_tenant_invoice_transaction` on the `matches` table. -/
def uniqTriples : List MatchRec → Bool
  | [] => true
  | m :: rest =>
    (!rest.any fun m' =>
      decide (m.tenant_id = m'.tenant_id ∧ m.invoice_id = m'.invoice_id ∧
        m.bank_transaction_id = m'.bank_transaction_id)) &&
    uniqTriples rest

/-! ## Concrete scenario inputs used by witnesses and counterexamples -/

/-- Invoice of the spec's exact-match scenario: amount 100.00, date D (epoch),
description `"INV-1"`, no invoice number, no vendor. -/
def cInv : InvoiceRec :=
  ⟨1, 1, none, none, 100, "USD", some 0, some "INV-1", InvoiceStatus.open⟩

/-- The exactly matching transaction: same tenant, currency, amount, date and
description as `cInv`. -/
def cTx : TxnRec := ⟨1, 1, none, some 0, 100, "USD", some "INV-1"⟩

/-- A transaction with a clearly mismatching amount. -/
def wTx200 : TxnRec := ⟨2, 1, none, some 0, 200, "USD", some "INV-1"⟩

/-- A transaction posted ten days after the epoch. -/
def wTxFar : TxnRec := ⟨3, 1, none, some 14400, 100, "USD", some "INV-1"⟩

/-- A transaction without a posted date (as far as the scorer's guard is
concerned). -/
def wTxNoDate : TxnRec := ⟨4, 1, none, none, 100, "USD", some "INV-1"⟩

/-- A one-invoice, one-transaction store for witnesses. -/
def cDB : DB := ⟨[cInv], [cTx], [], [], 10, 10⟩

/-- A proposed match row between `cInv` and `cTx`. -/
def cMatch : MatchRec := ⟨5, 1, 1, 1, 65, MatchStatus.proposed⟩

/-- The concrete store with one proposed match. -/
def cDBm : DB := ⟨[cInv], [cTx], [cMatch], [], 10, 10⟩

/-- `cDBm` after confirming `cMatch`: the match CONFIRMED, the invoice
MATCHED, in one step. -/
def cDBmAfter : DB :=
  ⟨[{ cInv with status := InvoiceStatus.matched }], [cTx],
   [{ cMatch with status := MatchStatus.confirmed }], [], 10, 10⟩

/-- A committed transaction with external id "X". -/
def cTxX : TxnRec := ⟨7, 1, some "X", some 0, 100, "USD", none⟩

/-- An import item carrying the same external id "X". -/
def cItemX : TxnCreate := ⟨some "X", 0, 100, "USD", none⟩

/-- An import item with no external id. -/
def cItemNoExt : TxnCreate := ⟨none, 0, 100, "USD", none⟩

/-- A store already holding the row with external id "X" and no idempotency
records. -/
def cDBx : DB := ⟨[], [cTxX], [], [], 8, 1⟩

/-- An empty store. -/
def cDBe : DB := ⟨[], [], [], [], 1, 1⟩

/-- A committed transaction with external id "a". -/
def cTxA : TxnRec := ⟨1, 1, some "a", some 0, 100, "USD", none⟩

/-- An import item with external id "a". -/
def c2itemA : TxnCreate := ⟨some "a", 0, 100, "USD", none⟩

/-- An import item with no external id. -/
def c2itemN : TxnCreate := ⟨none, 0, 100, "USD", none⟩

/-- A batch repeating the deduplicating item before a no-external-id item. -/
def c2items : List TxnCreate := [c2itemA, c2itemA, c2itemN]

/-- The row the first run of `c2items` inserts for the no-external-id item. -/
def cTxN5 : TxnRec := ⟨5, 1, none, some 0, 100, "USD", none⟩

/-- The row the second run of `c2items` inserts for the no-external-id item. -/
def cTxN6 : TxnRec := ⟨6, 1, none, some 0, 100, "USD", none⟩

/-- A store holding only the row with external id "a" and no idempotency
records. -/
def cDB2 : DB := ⟨[], [cTxA], [], [], 5, 1⟩

/-- The store after the first keyed import of `c2items` into `cDB2`. -/
def cDB2b : DB := ⟨[], [cTxA, cTxN5], [], [⟨1, "K2", c2items, [1, 1, 5]⟩], 6, 1⟩

/-- The store after the second keyed import of `c2items` into `cDB2b`. -/
def cDB2c : DB := ⟨[], [cTxA, cTxN5, cTxN6], [], [⟨1, "K2", c2items, [1, 1, 6]⟩], 7, 1⟩

/-- A store whose idempotency record for key "KR" resolves to the single
committed row, setting up a clean replay. -/
def cDBr : DB := ⟨[], [cTxA], [], [⟨1, "KR", [c2itemA], [1]⟩], 5, 1⟩

/-! # Theorems

## Bridges from the computable wrappers to ordinary `ℚ` arithmetic -/

theorem qadd_eq (a b : ℚ) : qadd a b = a + b := by
  have ha : ((a.den : ℚ)) ≠ 0 := by exact_mod_cast a.den_nz
  have hb : ((b.den : ℚ)) ≠ 0 := by exact_mod_cast b.den_nz
  rw [qadd, Rat.mkRat_eq_div]
  conv_rhs => rw [← Rat.num_div_den a, ← Rat.num_div_den b]
  rw [div_add_div _ _ ha hb]
  push_cast
  ring_nf

theorem qsub_eq (a b : ℚ) : qsub a b = a - b := by
  have ha : ((a.den : ℚ)) ≠ 0 := by exact_mod_cast a.den_nz
  have hb : ((b.den : ℚ)) ≠ 0 := by exact_mod_cast b.den_nz
  rw [qsub, Rat.mkRat_eq_div]
  conv_rhs => rw [← Rat.num_div_den a, ← Rat.num_div_den b]
  rw [div_sub_div _ _ ha hb]
  push_cast
  ring_nf

theorem qmul_eq (a b : ℚ) : qmul a b = a * b := by
  have ha : ((a.den : ℚ)) ≠ 0 := by exact_mod_cast a.den_nz
  have hb : ((b.den : ℚ)) ≠ 0 := by exact_mod_cast b.den_nz
  rw [qmul, Rat.mkRat_eq_div]
  conv_rhs => rw [← Rat.num_div_den a, ← Rat.num_div_den b]
  rw [div_mul_div_comm]
  push_cast
  ring_nf

theorem qdiv_eq (a b : ℚ) : qdiv a b = a / b := by
  rcases eq_or_ne b 0 with rfl | hb
  · show Rat.divInt _ (a.den * (0 : ℚ).num) = _
    norm_num [Rat.divInt]
  · have ha : ((a.den : ℚ)) ≠ 0 := by exact_mod_cast a.den_nz
    have hbd : ((b.den : ℚ)) ≠ 0 := by exact_mod_cast b.den_nz
    have hbn : ((b.num : ℚ)) ≠ 0 := by exact_mod_cast Rat.num_ne_zero.mpr hb
    rw [qdiv, Rat.divInt_eq_div]
    conv_rhs => rw [← Rat.num_div_den a, ← Rat.num_div_den b]
    push_cast
    field_simp

theorem ratFloor_eq (q : ℚ) : q.floor = ⌊q⌋ := by
  rw [Rat.floor_def', Rat.floor_def]

theorem mkRat_half : (mkRat 1 2 : ℚ) = 1/2 := by
  rw [Rat.mkRat_eq_div]
  norm_num

/-- `roundHalfEvenInt` in ordinary arithmetic. -/
theorem roundHalfEvenInt_eq (q : ℚ) :
    roundHalfEvenInt q =
      if q - ⌊q⌋ < 1/2 then ⌊q⌋
      else if 1/2 < q - ⌊q⌋ then ⌊q⌋ + 1
      else if ⌊q⌋ % 2 = 0 then ⌊q⌋ else ⌊q⌋ + 1 := by
  rw [roundHalfEvenInt, ratFloor_eq, qsub_eq, mkRat_half]

/-- `quantize2` in ordinary arithmetic. -/
theorem quantize2_eq (q : ℚ) :
    quantize2 q = (roundHalfEvenInt (q * 100) : ℚ) / 100 := by
  rw [quantize2, qdiv_eq, qmul_eq]

/-- The half-even rounding never moves past an integer bound from below. -/
theorem roundHalfEvenInt_le {q : ℚ} {n : ℤ} (h : q ≤ n) : roundHalfEvenInt q ≤ n := by
  rw [roundHalfEvenInt_eq]
  have hfl : ⌊q⌋ ≤ n := Int.floor_le_floor h |>.trans_eq (Int.floor_intCast n)
  rcases eq_or_lt_of_le hfl with heq | hlt
  · have hqn : q = (n : ℚ) := by
      have := Int.floor_le q
      rw [heq] at this
      exact le_antisymm h this
    have h0 : q - ⌊q⌋ = 0 := by rw [heq, hqn]; ring
    rw [h0]
    norm_num [heq]
  · have h1 : ⌊q⌋ + 1 ≤ n := hlt
    split
    · exact hfl
    · split
      · exact h1
      · split
        · exact hfl
        · exact h1

/-- The half-even rounding never moves past an integer bound from above. -/
theorem le_roundHalfEvenInt {q : ℚ} {n : ℤ} (h : (n : ℚ) ≤ q) : n ≤ roundHalfEvenInt q := by
  rw [roundHalfEvenInt_eq]
  have hfl : n ≤ ⌊q⌋ := Int.le_floor.mpr h
  have h1 : n ≤ ⌊q⌋ + 1 := le_trans hfl (by omega)
  split
  · exact hfl
  · split
    · exact h1
    · split
      · exact hfl
      · exact h1

/-- `quantize2` keeps a value inside integer bounds. -/
theorem quantize2_bounds {q : ℚ} {lo hi : ℤ} (hlo : (lo : ℚ) ≤ q) (hhi : q ≤ (hi : ℚ)) :
    (lo : ℚ) ≤ quantize2 q ∧ quantize2 q ≤ (hi : ℚ) := by
  rw [quantize2_eq]
  have hl : ((lo * 100 : ℤ) : ℚ) ≤ q * 100 := by push_cast; nlinarith
  have hh : q * 100 ≤ ((hi * 100 : ℤ) : ℚ) := by push_cast; nlinarith
  have hl' := le_roundHalfEvenInt hl
  have hh' := roundHalfEvenInt_le hh
  constructor
  · rw [le_div_iff₀ (by norm_num : (0:ℚ) < 100)]
    calc (lo : ℚ) * 100 = ((lo * 100 : ℤ) : ℚ) := by push_cast; ring
    _ ≤ (roundHalfEvenInt (q * 100) : ℚ) := by exact_mod_cast hl'
  · rw [div_le_iff₀ (by norm_num : (0:ℚ) < 100)]
    calc (roundHalfEvenInt (q * 100) : ℚ) ≤ ((hi * 100 : ℤ) : ℚ) := by exact_mod_cast hh'
    _ = (hi : ℚ) * 100 := by push_cast; ring

/-! ## Bounds for the SequenceMatcher ratio -/

theorem foldl_invariant {α β : Type} (P : α → Prop) (f : α → β → α) :
    ∀ (l : List β) (st : α), (∀ st x, x ∈ l → P st → P (f st x)) → P st → P (l.foldl f st) := by
  intro l
  induction l with
  | nil => intro st _ h0; exact h0
  | cons x xs ih =>
    intro st h h0
    exact ih (f st x) (fun st' y hy => h st' y (List.mem_cons_of_mem _ hy))
      (h st x (List.mem_cons_self _ _) h0)

theorem wsuf_le_left (a b : List Char) (alo blo : Nat) :
    ∀ i j, alo ≤ i → wsuf a b alo blo i j ≤ i + 1 - alo := by
  intro i
  induction i with
  | zero =>
    intro j h
    rw [wsuf]
    split <;> omega
  | succ i ih =>
    intro j h
    match j with
    | 0 =>
      rw [wsuf]
      split <;> omega
    | j + 1 =>
      rw [wsuf]
      split
      · split
        · omega
        · rename_i hno
          have : alo ≤ i := by omega
          have := ih j this
          omega
      · omega

theorem wsuf_le_right (a b : List Char) (alo blo : Nat) :
    ∀ i j, blo ≤ j → wsuf a b alo blo i j ≤ j + 1 - blo := by
  intro i
  induction i with
  | zero =>
    intro j h
    rw [wsuf]
    split <;> omega
  | succ i ih =>
    intro j h
    match j with
    | 0 =>
      rw [wsuf]
      split <;> omega
    | j + 1 =>
      rw [wsuf]
      split
      · split
        · omega
        · rename_i hno
          have : blo ≤ j := by omega
          have := ih j this
          omega
      · omega

theorem flmStep_ok {a b : List Char} {alo ahi blo bhi i j : Nat} {st : FLM}
    (hi : alo ≤ i ∧ i < ahi) (hj : blo ≤ j ∧ j < bhi) (h : FLMok alo ahi blo bhi st) :
    FLMok alo ahi blo bhi (flmStep a b alo blo st i j) := by
  rw [flmStep]
  split
  · rename_i hlt
    intro _
    have hkl := wsuf_le_left a b alo blo i j hi.1
    have hkr := wsuf_le_right a b alo blo i j hj.1
    have hia := hi.1
    have hib := hi.2
    have hja := hj.1
    have hjb := hj.2
    dsimp only
    omega
  · exact h

theorem findLongestMatch_ok (a b : List Char) (alo ahi blo bhi : Nat) :
    FLMok alo ahi blo bhi (findLongestMatch a b alo ahi blo bhi) := by
  rw [findLongestMatch]
  apply foldl_invariant (FLMok alo ahi blo bhi)
  · intro st i hi
    rw [List.mem_range'_1] at hi
    intro h0
    apply foldl_invariant (FLMok alo ahi blo bhi)
    · intro st' j hj
      rw [List.mem_range'_1] at hj
      exact flmStep_ok ⟨hi.1, by omega⟩ ⟨hj.1, by omega⟩
    · exact h0
  · intro h
    simp at h

theorem matchTotal_le_left (a b : List Char) :
    ∀ fuel alo ahi blo bhi, matchTotal a b fuel alo ahi blo bhi ≤ ahi - alo := by
  intro fuel
  induction fuel with
  | zero => intro alo ahi blo bhi; rw [matchTotal]; omega
  | succ fuel ih =>
    intro alo ahi blo bhi
    rw [matchTotal]
    split
    · omega
    · rename_i hk
      have hok := findLongestMatch_ok a b alo ahi blo bhi (by omega)
      have h1 := ih alo (findLongestMatch a b alo ahi blo bhi).besti blo
        (findLongestMatch a b alo ahi blo bhi).bestj
      have h2 := ih ((findLongestMatch a b alo ahi blo bhi).besti +
          (findLongestMatch a b alo ahi blo bhi).bestk) ahi
        ((findLongestMatch a b alo ahi blo bhi).bestj +
          (findLongestMatch a b alo ahi blo bhi).bestk) bhi
      omega

theorem matchTotal_le_right (a b : List Char) :
    ∀ fuel alo ahi blo bhi, matchTotal a b fuel alo ahi blo bhi ≤ bhi - blo := by
  intro fuel
  induction fuel with
  | zero => intro alo ahi blo bhi; rw [matchTotal]; omega
  | succ fuel ih =>
    intro alo ahi blo bhi
    rw [matchTotal]
    split
    · omega
    · rename_i hk
      have hok := findLongestMatch_ok a b alo ahi blo bhi (by omega)
      have h1 := ih alo (findLongestMatch a b alo ahi blo bhi).besti blo
        (findLongestMatch a b alo ahi blo bhi).bestj
      have h2 := ih ((findLongestMatch a b alo ahi blo bhi).besti +
          (findLongestMatch a b alo ahi blo bhi).bestk) ahi
        ((findLongestMatch a b alo ahi blo bhi).bestj +
          (findLongestMatch a b alo ahi blo bhi).bestk) bhi
      omega

theorem smRatio_nonneg (a b : List Char) : 0 ≤ smRatio a b := by
  rw [smRatio]
  split
  · norm_num
  · rw [qdiv_eq, qmul_eq]
    positivity

theorem smRatio_le_one (a b : List Char) : smRatio a b ≤ 1 := by
  rw [smRatio]
  split
  · norm_num
  · rename_i hT
    rw [qdiv_eq, qmul_eq]
    have hM1 := matchTotal_le_left a b (a.length + 1) 0 a.length 0 b.length
    have hM2 := matchTotal_le_right a b (a.length + 1) 0 a.length 0 b.length
    have hTpos : (0 : ℚ) < ((a.length + b.length : Nat) : ℚ) := by
      have : 0 < a.length + b.length := Nat.pos_of_ne_zero hT
      exact_mod_cast this
    rw [div_le_one hTpos]
    have : 2 * matchTotal a b (a.length + 1) 0 a.length 0 b.length ≤ a.length + b.length := by
      omega
    exact_mod_cast this

theorem textSimilarityScore_nonneg (inv : InvoiceRec) (tx : TxnRec) :
    0 ≤ textSimilarityScore inv tx := by
  rw [textSimilarityScore]
  split
  · norm_num
  · split
    · exact le_max_of_le_left (smRatio_nonneg _ _)
    · exact smRatio_nonneg _ _

theorem textSimilarityScore_le_one (inv : InvoiceRec) (tx : TxnRec) :
    textSimilarityScore inv tx ≤ 1 := by
  rw [textSimilarityScore]
  split
  · norm_num
  · split
    · apply max_le (smRatio_le_one _ _)
      have : (mkRat 4 5 : ℚ) = 4/5 := by rw [Rat.mkRat_eq_div]; norm_num
      rw [this]
      norm_num
    · exact smRatio_le_one _ _

/-! ## Scorer term lemmas -/

theorem tolEq : AMOUNT_TOLERANCE = 1/100 := by
  rw [AMOUNT_TOLERANCE, Rat.mkRat_eq_div]
  norm_num

/-- The three branches of the amount factor, in ordinary arithmetic. -/
theorem amountTerm_cases (inv : InvoiceRec) (tx : TxnRec) :
    (|inv.amount - tx.amount| = 0 →
      amountTerm inv tx = (50, [Reason.exactAmount])) ∧
    (0 < |inv.amount - tx.amount| → |inv.amount - tx.amount| ≤ 1/100 →
      amountTerm inv tx =
        (30 * (1 - |inv.amount - tx.amount| / (1/100)),
         [Reason.amountWithinTolerance |inv.amount - tx.amount|])) ∧
    (1/100 < |inv.amount - tx.amount| →
      amountTerm inv tx = (0, [Reason.amountMismatch])) := by
  simp only [amountTerm, qsub_eq, qmul_eq, qdiv_eq, tolEq, EXACT_AMOUNT_WEIGHT,
    AMOUNT_TOLERANCE_WEIGHT]
  refine ⟨fun h0 => ?_, fun hpos hle => ?_, fun hgt => ?_⟩
  · rw [if_pos h0]
  · rw [if_neg (by intro h; rw [h] at hpos; exact lt_irrefl 0 hpos), if_pos hle]
  · rw [if_neg (by intro h; rw [h] at hgt; norm_num at hgt),
      if_neg (by intro h; exact absurd hgt (not_lt.mpr h))]

/-- The date factor when both dates are present, in ordinary arithmetic. -/
theorem dateTerm_cases (inv : InvoiceRec) (tx : TxnRec) :
    (∀ d1 d2, inv.invoice_date = some d1 → tx.posted_at = some d2 →
      ((tdDays d1 d2).natAbs ≤ 3 →
        dateTerm inv tx =
          (15 * (1 - ((tdDays d1 d2).natAbs : ℚ) / 3),
           [Reason.dateWithin (tdDays d1 d2).natAbs])) ∧
      (3 < (tdDays d1 d2).natAbs →
        dateTerm inv tx = (0, [Reason.dateDifference (tdDays d1 d2).natAbs]))) ∧
    ((inv.invoice_date = none ∨ tx.posted_at = none) → dateTerm inv tx = (0, [])) := by
  constructor
  · intro d1 d2 h1 h2
    simp only [dateTerm, h1, h2, qsub_eq, qmul_eq, qdiv_eq, DATE_PROXIMITY_WEIGHT,
      DATE_TOLERANCE_DAYS]
    constructor
    · intro hle
      rw [if_pos hle]
      norm_num
    · intro hgt
      rw [if_neg (by omega)]
  · intro h
    rcases h with h | h
    · simp only [dateTerm, h]
    · simp only [dateTerm, h]
      cases inv.invoice_date <;> rfl

/-- Exact-amount shape of the amount factor. -/
theorem amountTerm_exact {inv : InvoiceRec} {tx : TxnRec} (h : inv.amount = tx.amount) :
    amountTerm inv tx = (50, [Reason.exactAmount]) := by
  simp only [amountTerm, qsub_eq, h, sub_self, abs_zero, EXACT_AMOUNT_WEIGHT]
  rw [if_pos trivial]

/-- Equal dates give the full 15-point date factor. -/
theorem dateTerm_same {inv : InvoiceRec} {tx : TxnRec} (d : Int)
    (h1 : inv.invoice_date = some d) (h2 : tx.posted_at = some d) :
    dateTerm inv tx = (15, [Reason.dateWithin 0]) := by
  have h0 : tdDays d d = 0 := by
    rw [tdDays, sub_self]
    rfl
  simp only [dateTerm, h1, h2, h0, Int.natAbs_zero, qsub_eq, qmul_eq, qdiv_eq]
  rw [if_pos (by omega : 0 ≤ DATE_TOLERANCE_DAYS)]
  norm_num [DATE_PROXIMITY_WEIGHT]

/-- The text factor stays within `[0, 5]`. -/
theorem textTerm_bounds (inv : InvoiceRec) (tx : TxnRec) :
    0 ≤ (textTerm inv tx).1 ∧ (textTerm inv tx).1 ≤ 5 := by
  rw [textTerm]
  have h0 := textSimilarityScore_nonneg inv tx
  have h1 := textSimilarityScore_le_one inv tx
  split
  · dsimp only
    rw [qmul_eq]
    simp only [TEXT_SIMILARITY_WEIGHT]
    constructor <;> nlinarith
  · dsimp only
    norm_num

/-- `_calculate_match_score` unfolded to ordinary arithmetic. -/
theorem calculateMatchScore_def (inv : InvoiceRec) (tx : TxnRec) :
    calculateMatchScore inv tx =
      (quantize2
        (min ((amountTerm inv tx).1 + (dateTerm inv tx).1 + (textTerm inv tx).1) 100),
       (amountTerm inv tx).2 ++ (dateTerm inv tx).2 ++ (textTerm inv tx).2) := by
  simp only [calculateMatchScore]
  rw [qadd_eq, qadd_eq]

/-! ## Claims C6 and C7: the amount and date factors -/

/-- **C6.** For every scored pair, the amount term of the score is: 50.00 when
`d = |invoice.amount - transaction.amount|` equals 0 (with reason
"exact amount match"); `30.00 * (1 - d/0.01)` when `0 < d ≤ 0.01` (with the
reason noting the tolerance); and exactly 0 when `d > 0.01` (with the reason
noting an amount mismatch). -/
theorem C6_amount_term (inv : InvoiceRec) (tx : TxnRec) :
    (|inv.amount - tx.amount| = 0 →
      amountTerm inv tx = (50, [Reason.exactAmount])) ∧
    (0 < |inv.amount - tx.amount| → |inv.amount - tx.amount| ≤ 1/100 →
      amountTerm inv tx =
        (30 * (1 - |inv.amount - tx.amount| / (1/100)),
         [Reason.amountWithinTolerance |inv.amount - tx.amount|])) ∧
    (1/100 < |inv.amount - tx.amount| →
      amountTerm inv tx = (0, [Reason.amountMismatch])) :=
  amountTerm_cases inv tx

/-- Witness for `C6_amount_term` at the exact-match pair and at an
amount-mismatch pair. -/
theorem C6_amount_term_witness :
    amountTerm cInv cTx = (50, [Reason.exactAmount]) ∧
    amountTerm cInv wTx200 = (0, [Reason.amountMismatch]) :=
  ⟨(C6_amount_term cInv cTx).1 (by norm_num [cInv, cTx]),
   (C6_amount_term cInv wTx200).2.2 (by norm_num [cInv, wTx200])⟩

/-- **C7.** For every scored pair where both `invoice_date` and `posted_at`
are present, with `days = |days_between(invoice_date, posted_at)|`, the date
term adds `15.00 * (1 - days/3)` when `days ≤ 3` and exactly 0 when
`days > 3`; when either date is absent the date term contributes 0 and no
date entry is appended to the reason. -/
theorem C7_date_term (inv : InvoiceRec) (tx : TxnRec) :
    (∀ d1 d2, inv.invoice_date = some d1 → tx.posted_at = some d2 →
      ((tdDays d1 d2).natAbs ≤ 3 →
        dateTerm inv tx =
          (15 * (1 - ((tdDays d1 d2).natAbs : ℚ) / 3),
           [Reason.dateWithin (tdDays d1 d2).natAbs])) ∧
      (3 < (tdDays d1 d2).natAbs →
        dateTerm inv tx = (0, [Reason.dateDifference (tdDays d1 d2).natAbs]))) ∧
    ((inv.invoice_date = none ∨ tx.posted_at = none) → dateTerm inv tx = (0, [])) :=
  dateTerm_cases inv tx

/-- Witness for `C7_date_term`: same-day pair (full 15 points), a pair ten
days apart (0 points), and a missing date (0 points, no reason entry). -/
theorem C7_date_term_witness :
    dateTerm cInv cTx = (15 * (1 - (0 : ℚ) / 3), [Reason.dateWithin 0]) ∧
    dateTerm cInv wTxFar = (0, [Reason.dateDifference 10]) ∧
    dateTerm cInv wTxNoDate = (0, []) := by
  refine ⟨?_, ?_, ?_⟩
  · have e : (tdDays 0 0).natAbs = 0 := by decide
    have h := ((C7_date_term cInv cTx).1 0 0 rfl rfl).1 (by decide)
    rw [e] at h
    simpa using h
  · have e : (tdDays 0 14400).natAbs = 10 := by decide
    have h := ((C7_date_term cInv wTxFar).1 0 14400 rfl rfl).2 (by decide)
    rw [e] at h
    exact h
  · exact (C7_date_term cInv wTxNoDate).2 (Or.inr rfl)

/-! ## Claim C1: the exactly-matching pair -/

set_option maxRecDepth 100000 in
/-- **C1, counterexample.**  The claim says an exactly matching pair (same
tenant and currency, equal amount, equal date, identical description) scores
100.00.  The scorer's weights sum to at most 50 + 15 + 5 = 70, and this
concrete exactly-matching pair scores 69.55. -/
theorem C1_counterexample :
    (cInv.tenant_id = cTx.tenant_id ∧ cInv.currency = cTx.currency ∧
     cInv.amount = cTx.amount ∧ cInv.invoice_date = some 0 ∧ cTx.posted_at = some 0 ∧
     cInv.description = cTx.description) ∧
    ¬ (calculateMatchScore cInv cTx).1 = 100 := by
  constructor
  · exact ⟨rfl, rfl, rfl, rfl, rfl, rfl⟩
  · decide

/-- **C1, amended.**  For every invoice/transaction pair of the same tenant
and currency with equal amount, equal (present) date, and identical
description, the match scorer returns a score between 65.00 and 70.00 — the
50-point exact-amount factor plus the 15-point same-day date factor plus a
text factor of at most 5 — never 100.00, and a reason that includes
"exact amount match". -/
theorem C1_amended (inv : InvoiceRec) (tx : TxnRec)
    (htenant : inv.tenant_id = tx.tenant_id) (hcur : inv.currency = tx.currency)
    (hamount : inv.amount = tx.amount) (d : Int)
    (hd1 : inv.invoice_date = some d) (hd2 : tx.posted_at = some d)
    (hdesc : inv.description = tx.description) :
    65 ≤ (calculateMatchScore inv tx).1 ∧ (calculateMatchScore inv tx).1 ≤ 70 ∧
    (calculateMatchScore inv tx).1 ≠ 100 ∧
    Reason.exactAmount ∈ (calculateMatchScore inv tx).2 := by
  have ha := amountTerm_exact hamount
  have hd := dateTerm_same d hd1 hd2
  have ht := textTerm_bounds inv tx
  rw [calculateMatchScore_def, ha, hd]
  dsimp only
  rw [min_eq_left (by linarith)]
  have hb := quantize2_bounds
    (by push_cast; linarith : ((65 : ℤ) : ℚ) ≤ 50 + 15 + (textTerm inv tx).1)
    (by push_cast; linarith : 50 + 15 + (textTerm inv tx).1 ≤ ((70 : ℤ) : ℚ))
  refine ⟨by exact_mod_cast hb.1, by exact_mod_cast hb.2, ?_, by simp⟩
  have h70 : quantize2 (50 + 15 + (textTerm inv tx).1) ≤ (70 : ℚ) := by exact_mod_cast hb.2
  exact ne_of_lt (lt_of_le_of_lt h70 (by norm_num))

/-- Witness for `C1_amended` at the concrete exactly-matching pair. -/
theorem C1_amended_witness :
    65 ≤ (calculateMatchScore cInv cTx).1 ∧ (calculateMatchScore cInv cTx).1 ≤ 70 ∧
    (calculateMatchScore cInv cTx).1 ≠ 100 ∧
    Reason.exactAmount ∈ (calculateMatchScore cInv cTx).2 :=
  C1_amended cInv cTx rfl rfl rfl 0 rfl rfl rfl

/-! ## Dictionary lemmas (`best_matches` is a Python dict keyed by invoice id) -/

theorem dictFind_nil (k : Nat) : dictFind k [] = none := rfl

theorem dictFind_cons (k : Nat) (kv : Nat × Candidate) (d : List (Nat × Candidate)) :
    dictFind k (kv :: d) = if kv.1 = k then some kv.2 else dictFind k d := by
  rw [dictFind, dictFind]
  simp only [List.find?]
  split
  · rename_i h
    rw [if_pos (by simpa using h)]
    rfl
  · rename_i h
    rw [if_neg (by simpa using h)]

theorem dictFind_insert_self (k : Nat) (v : Candidate) :
    ∀ d, dictFind k (dictInsert k v d) = some v := by
  intro d
  induction d with
  | nil => simp [dictInsert, dictFind_cons]
  | cons kv rest ih =>
    rw [dictInsert]
    split
    · rename_i h
      rw [dictFind_cons, if_pos rfl]
    · rename_i h
      rw [dictFind_cons, if_neg (by simpa using fun e => h e.symm)]
      exact ih

theorem dictFind_insert_ne (k k' : Nat) (v : Candidate) (h : k' ≠ k) :
    ∀ d, dictFind k' (dictInsert k v d) = dictFind k' d := by
  intro d
  induction d with
  | nil =>
    rw [dictInsert, dictFind_cons, if_neg (by simpa using fun e => h e.symm), dictFind_nil]
  | cons kv rest ih =>
    rw [dictInsert]
    split
    · rename_i he
      rw [dictFind_cons, dictFind_cons]
      dsimp only
      rw [if_neg (fun e => h e.symm), if_neg (fun e => h (he.trans e).symm)]
    · rw [dictFind_cons, dictFind_cons]
      split
      · rfl
      · exact ih

theorem mem_dictInsert (k : Nat) (v : Candidate) (kv : Nat × Candidate) :
    ∀ d, kv ∈ dictInsert k v d → kv = (k, v) ∨ kv ∈ d := by
  intro d
  induction d with
  | nil =>
    intro h
    rw [dictInsert] at h
    simp at h
    simp [h]
  | cons kv' rest ih =>
    intro h
    rw [dictInsert] at h
    split at h
    · rcases List.mem_cons.mp h with h | h
      · exact Or.inl h
      · exact Or.inr (List.mem_cons_of_mem _ h)
    · rcases List.mem_cons.mp h with h | h
      · exact Or.inr (h ▸ List.mem_cons_self _ _)
      · rcases ih h with h | h
        · exact Or.inl h
        · exact Or.inr (List.mem_cons_of_mem _ h)

theorem dictInsert_keys (k : Nat) (v : Candidate) :
    ∀ d, (dictInsert k v d).map Prod.fst = d.map Prod.fst ∨
      (dictInsert k v d).map Prod.fst = d.map Prod.fst ++ [k] := by
  intro d
  induction d with
  | nil => right; rfl
  | cons kv rest ih =>
    rw [dictInsert]
    split
    · rename_i h
      left
      simp [h]
    · rcases ih with h | h <;> simp [h]

theorem dictInsert_keys_nodup (k : Nat) (v : Candidate) (d : List (Nat × Candidate))
    (h : (d.map Prod.fst).Nodup) (hk : dictFind k d = none) :
    ((dictInsert k v d).map Prod.fst).Nodup := by
  induction d with
  | nil => simp [dictInsert]
  | cons kv rest ih =>
    rw [dictFind_cons] at hk
    rw [dictInsert]
    split at hk
    · exact absurd hk (by simp)
    · rename_i hne
      rw [if_neg (by simpa using fun e => hne e.symm)]
      simp only [List.map_cons, List.nodup_cons] at h ⊢
      refine ⟨?_, ih h.2 hk⟩
      intro hmem
      rcases dictInsert_keys k v rest with he | he
      · rw [he] at hmem
        exact h.1 hmem
      · rw [he] at hmem
        rcases List.mem_append.mp hmem with hmem | hmem
        · exact h.1 hmem
        · simp at hmem
          exact hne hmem

theorem dictFind_of_mem (k : Nat) (c : Candidate) :
    ∀ d, ((d.map Prod.fst).Nodup) → (k, c) ∈ d → dictFind k d = some c := by
  intro d
  induction d with
  | nil => intro _ h; simp at h
  | cons kv rest ih =>
    intro hnd hmem
    simp only [List.map_cons, List.nodup_cons] at hnd
    rw [dictFind_cons]
    rcases List.mem_cons.mp hmem with h | h
    · rw [← h]
      simp
    · have hk : kv.1 ≠ k := by
        intro e
        apply hnd.1
        rw [e]
        exact List.mem_map.mpr ⟨(k, c), h, rfl⟩
      rw [if_neg hk]
      exact ih hnd.2 h

theorem mem_of_dictFind (k : Nat) (c : Candidate) :
    ∀ d, dictFind k d = some c → (k, c) ∈ d := by
  intro d
  induction d with
  | nil => intro h; simp [dictFind_nil] at h
  | cons kv rest ih =>
    intro h
    rw [dictFind_cons] at h
    split at h
    · rename_i he
      have : kv = (k, c) := by
        cases kv
        simp_all
      exact this ▸ List.mem_cons_self _ _
    · exact List.mem_cons_of_mem _ (ih h)

/-! ## Reconciliation loop lemmas -/

theorem roundHalfEvenInt_intCast (n : ℤ) : roundHalfEvenInt ((n : ℤ) : ℚ) = n := by
  rw [roundHalfEvenInt_eq]
  rw [Int.floor_intCast]
  rw [if_pos (by norm_num)]

theorem quantize2_idem (q : ℚ) : quantize2 (quantize2 q) = quantize2 q := by
  rw [quantize2_eq q, quantize2_eq]
  have h : (roundHalfEvenInt (q * 100) : ℚ) / 100 * 100 = (roundHalfEvenInt (q * 100) : ℚ) := by
    field_simp
  rw [h, roundHalfEvenInt_intCast]

/-- `_calculate_match_score` returns an already-quantized score, so the
orchestrator's `rounded_score` step changes nothing. -/
theorem mkCand_score (inv : InvoiceRec) (t : TxnRec) :
    mkCand inv t = ⟨inv.id, t.id, (calculateMatchScore inv t).1, (calculateMatchScore inv t).2⟩ := by
  rw [mkCand, calculateMatchScore_def]
  dsimp only
  rw [quantize2_idem]

theorem considerTxn_find_ne (inv : InvoiceRec) (t : TxnRec) (bm : List (Nat × Candidate))
    (k : Nat) (h : k ≠ inv.id) :
    dictFind k (considerTxn inv bm t) = dictFind k bm := by
  rw [considerTxn]
  split
  · rfl
  · split
    · split
      · exact dictFind_insert_ne _ _ _ h _
      · split
        · exact dictFind_insert_ne _ _ _ h _
        · rfl
    · rfl

theorem considerTxn_find_self (inv : InvoiceRec) (t : TxnRec) (bm : List (Nat × Candidate)) :
    dictFind inv.id (considerTxn inv bm t) = perInvoiceStep inv (dictFind inv.id bm) t := by
  rw [considerTxn, perInvoiceStep.eq_def]
  split
  · rfl
  · split
    · cases hf : dictFind inv.id bm with
      | none => exact dictFind_insert_self _ _ _
      | some best =>
        dsimp only
        split
        · exact dictFind_insert_self _ _ _
        · exact hf
    · rfl

theorem mem_considerTxn (inv : InvoiceRec) (t : TxnRec) (bm : List (Nat × Candidate))
    (kv : Nat × Candidate) (h : kv ∈ considerTxn inv bm t) :
    kv ∈ bm ∨
      (kv = (inv.id, mkCand inv t) ∧ inv.currency = t.currency ∧
       MIN_SCORE_THRESHOLD ≤ (calculateMatchScore inv t).1) := by
  rw [considerTxn] at h
  split at h
  · exact Or.inl h
  · rename_i hcur
    rw [not_not] at hcur
    split at h
    · rename_i hthr
      split at h
      · rcases mem_dictInsert _ _ _ _ h with h | h
        · exact Or.inr ⟨h, hcur, hthr⟩
        · exact Or.inl h
      · split at h
        · rcases mem_dictInsert _ _ _ _ h with h | h
          · exact Or.inr ⟨h, hcur, hthr⟩
          · exact Or.inl h
        · exact Or.inl h
    · exact Or.inl h

theorem dictInsert_keys_of_found (k : Nat) (v c : Candidate) :
    ∀ d, dictFind k d = some c → (dictInsert k v d).map Prod.fst = d.map Prod.fst := by
  intro d
  induction d with
  | nil => intro h; simp [dictFind_nil] at h
  | cons kv rest ih =>
    intro h
    rw [dictFind_cons] at h
    rw [dictInsert]
    split at h
    · rename_i he
      rw [if_pos he.symm]
      simp [he]
    · rename_i he
      rw [if_neg (fun e => he e.symm)]
      simp only [List.map_cons]
      rw [ih h]

theorem considerTxn_keys_nodup (inv : InvoiceRec) (t : TxnRec) (bm : List (Nat × Candidate))
    (h : (bm.map Prod.fst).Nodup) : ((considerTxn inv bm t).map Prod.fst).Nodup := by
  rw [considerTxn]
  split
  · exact h
  · split
    · cases hf : dictFind inv.id bm with
      | none => exact dictInsert_keys_nodup _ _ _ h hf
      | some best =>
        dsimp only
        split
        · rw [dictInsert_keys_of_found _ _ _ _ hf]
          exact h
        · exact h
    · exact h

theorem bestMatches_keys_nodup (invoices : List InvoiceRec) (txns : List TxnRec) :
    ((bestMatches invoices txns).map Prod.fst).Nodup := by
  rw [bestMatches]
  apply foldl_invariant (fun bm : List (Nat × Candidate) => (bm.map Prod.fst).Nodup)
  · intro bm inv _ hbm
    apply foldl_invariant (fun bm : List (Nat × Candidate) => (bm.map Prod.fst).Nodup)
    · intro bm' t _ h
      exact considerTxn_keys_nodup inv t bm' h
    · exact hbm
  · simp

/-- Soundness of the `best_matches` dictionary: each entry is keyed by its
candidate's invoice id and arises from an in-scope same-currency pair that met
the threshold. -/
theorem bestMatches_sound (invoices : List InvoiceRec) (txns : List TxnRec) :
    ∀ kv ∈ bestMatches invoices txns,
      kv.2.invoice_id = kv.1 ∧
      ∃ inv, inv ∈ invoices ∧ ∃ t, t ∈ txns ∧ inv.id = kv.1 ∧
        inv.currency = t.currency ∧ MIN_SCORE_THRESHOLD ≤ (calculateMatchScore inv t).1 ∧
        kv.2 = mkCand inv t := by
  rw [bestMatches]
  apply foldl_invariant
    (fun bm : List (Nat × Candidate) => ∀ kv ∈ bm,
      kv.2.invoice_id = kv.1 ∧
      ∃ inv, inv ∈ invoices ∧ ∃ t, t ∈ txns ∧ inv.id = kv.1 ∧
        inv.currency = t.currency ∧ MIN_SCORE_THRESHOLD ≤ (calculateMatchScore inv t).1 ∧
        kv.2 = mkCand inv t)
  · intro bm inv hinv hbm
    apply foldl_invariant
      (fun bm : List (Nat × Candidate) => ∀ kv ∈ bm,
        kv.2.invoice_id = kv.1 ∧
        ∃ inv, inv ∈ invoices ∧ ∃ t, t ∈ txns ∧ inv.id = kv.1 ∧
          inv.currency = t.currency ∧ MIN_SCORE_THRESHOLD ≤ (calculateMatchScore inv t).1 ∧
          kv.2 = mkCand inv t)
    · intro bm' t ht h kv hkv
      rcases mem_considerTxn inv t bm' kv hkv with hkv | ⟨he, hcur, hthr⟩
      · exact h kv hkv
      · subst he
        refine ⟨by rw [mkCand_score], inv, hinv, t, ht, by rw [mkCand_score], hcur, hthr, rfl⟩
    · exact hbm
  · intro kv hkv
    simp at hkv

theorem scoredPairs_currency (invoices : List InvoiceRec) (txns : List TxnRec) :
    ∀ p ∈ scoredPairs invoices txns, p.1.currency = p.2.currency := by
  intro p hp
  rw [scoredPairs] at hp
  rcases List.mem_flatMap.mp hp with ⟨inv, _, hmem⟩
  rcases List.mem_map.mp hmem with ⟨t, htf, he⟩
  rcases List.mem_filter.mp htf with ⟨_, hcur⟩
  subst he
  simpa using hcur

theorem inner_foldl_eq_scored (inv : InvoiceRec) :
    ∀ (txns : List TxnRec) (bm : List (Nat × Candidate)),
      txns.foldl (considerTxn inv) bm =
        ((txns.filter fun t => inv.currency == t.currency).map fun t => (inv, t)).foldl
          considerScored bm := by
  intro txns
  induction txns with
  | nil => intro bm; rfl
  | cons t ts ih =>
    intro bm
    rw [List.foldl_cons, List.filter_cons]
    split
    · rename_i hcur
      rw [List.map_cons, List.foldl_cons]
      rw [ih]
      congr 1
      rw [considerTxn, considerScored]
      rw [if_neg (by simpa using hcur)]
    · rename_i hcur
      rw [ih]
      congr 1
      rw [considerTxn]
      rw [if_pos (by simpa using hcur)]

/-- `best_matches` is computed by folding the (unguarded) scoring step over
exactly the same-currency pairs: the scorer is never invoked elsewhere. -/
theorem bestMatches_eq_scoredPairs (invoices : List InvoiceRec) (txns : List TxnRec) :
    bestMatches invoices txns = (scoredPairs invoices txns).foldl considerScored [] := by
  rw [bestMatches, scoredPairs]
  generalize ([] : List (Nat × Candidate)) = bm
  induction invoices generalizing bm with
  | nil => rfl
  | cons inv invs ih =>
    rw [List.foldl_cons, List.flatMap_cons, List.foldl_append]
    rw [ih, inner_foldl_eq_scored]

theorem insertProposed_fold_mem (tenant : Nat) :
    ∀ (cs : List Candidate) (st : List MatchRec × Nat) (m : MatchRec),
      m ∈ (cs.foldl (insertProposed tenant) st).1 →
      m ∈ st.1 ∨ ∃ c ∈ cs, m.tenant_id = tenant ∧ m.invoice_id = c.invoice_id ∧
        m.bank_transaction_id = c.bank_transaction_id ∧ m.status = MatchStatus.proposed := by
  intro cs
  induction cs with
  | nil => intro st m h; exact Or.inl h
  | cons c cs ih =>
    intro st m h
    rw [List.foldl_cons] at h
    rcases ih _ m h with h | ⟨c', hc', hprops⟩
    · rw [insertProposed] at h
      split at h
      · exact Or.inl h
      · rcases List.mem_append.mp h with h | h
        · exact Or.inl h
        · simp only [List.mem_singleton] at h
          subst h
          exact Or.inr ⟨c, List.mem_cons_self _ _, rfl, rfl, rfl, rfl⟩
    · exact Or.inr ⟨c', List.mem_cons_of_mem _ hc', hprops⟩

/-- **C8.** For every tenant, `reconcile` never invokes the scorer on an
invoice/transaction pair with differing currency codes — `best_matches` is a
fold of the scoring step over `scoredPairs`, all of which have matching
currencies — and no such pair ever appears in the returned candidate list or
is persisted as a Match. -/
theorem C8_currency_guard (db : DB) (tenant : Nat) :
    (∀ p ∈ scoredPairs (getOpenInvoices db tenant) (getUnmatchedTransactions db tenant),
        p.1.currency = p.2.currency) ∧
    bestMatches (getOpenInvoices db tenant) (getUnmatchedTransactions db tenant) =
      (scoredPairs (getOpenInvoices db tenant) (getUnmatchedTransactions db tenant)).foldl
        considerScored [] ∧
    (∀ c ∈ (reconcile db tenant).2.candidates,
        ∃ inv ∈ getOpenInvoices db tenant, ∃ t ∈ getUnmatchedTransactions db tenant,
          c.invoice_id = inv.id ∧ c.bank_transaction_id = t.id ∧
          inv.currency = t.currency) ∧
    (∀ m ∈ (reconcile db tenant).1.matchRows, m ∈ db.matchRows ∨
        ∃ inv ∈ getOpenInvoices db tenant, ∃ t ∈ getUnmatchedTransactions db tenant,
          m.invoice_id = inv.id ∧ m.bank_transaction_id = t.id ∧
          inv.currency = t.currency) := by
  have hcand : ∀ c ∈ (reconcile db tenant).2.candidates,
      ∃ inv ∈ getOpenInvoices db tenant, ∃ t ∈ getUnmatchedTransactions db tenant,
        c.invoice_id = inv.id ∧ c.bank_transaction_id = t.id ∧
        inv.currency = t.currency := by
    intro c hc
    rw [reconcile] at hc
    dsimp only at hc
    rcases List.mem_map.mp hc with ⟨kv, hkv, he⟩
    rcases bestMatches_sound _ _ kv hkv with ⟨_, inv, hinv, t, ht, hid, hcur, _, hce⟩
    subst he
    refine ⟨inv, hinv, t, ht, ?_, ?_, hcur⟩
    · rw [hce, mkCand_score]
    · rw [hce, mkCand_score]
  refine ⟨scoredPairs_currency _ _, bestMatches_eq_scoredPairs _ _, hcand, ?_⟩
  intro m hm
  rw [reconcile] at hm
  dsimp only at hm
  rcases insertProposed_fold_mem tenant _ _ m hm with hm | ⟨c, hc, _, hinv, htx, _⟩
  · exact Or.inl hm
  · have hc' : c ∈ (reconcile db tenant).2.candidates := by
      rw [reconcile]
      exact hc
    rcases hcand c hc' with ⟨inv, hi, t, ht, h1, h2, h3⟩
    exact Or.inr ⟨inv, hi, t, ht, by rw [hinv, h1], by rw [htx, h2], h3⟩

/-- Witness for `C8_currency_guard`: the one same-currency pair of the
concrete store. -/
theorem C8_currency_guard_witness : cInv.currency = cTx.currency :=
  (C8_currency_guard cDB 1).1 (cInv, cTx) (by decide)

/-! ## Reconcile idempotence (C3) -/

theorem reconcile_invoices (db : DB) (tenant : Nat) :
    (reconcile db tenant).1.invoices = db.invoices := rfl

theorem reconcile_transactions (db : DB) (tenant : Nat) :
    (reconcile db tenant).1.transactions = db.transactions := rfl

theorem reconcile_matchRows (db : DB) (tenant : Nat) :
    (reconcile db tenant).1.matchRows =
      (((bestMatches (getOpenInvoices db tenant) (getUnmatchedTransactions db tenant)).map
        Prod.snd).foldl (insertProposed tenant) (db.matchRows, db.nextMatchId)).1 := rfl

theorem reconcile_candidates (db : DB) (tenant : Nat) :
    (reconcile db tenant).2.candidates =
      (bestMatches (getOpenInvoices db tenant) (getUnmatchedTransactions db tenant)).map
        Prod.snd := rfl

theorem insertProposed_fold_sub (tenant : Nat) :
    ∀ (cs : List Candidate) (st : List MatchRec × Nat) (m : MatchRec),
      m ∈ st.1 → m ∈ (cs.foldl (insertProposed tenant) st).1 := by
  intro cs
  induction cs with
  | nil => intro st m h; exact h
  | cons c cs ih =>
    intro st m h
    rw [List.foldl_cons]
    apply ih
    rw [insertProposed]
    split
    · exact h
    · exact List.mem_append_left _ h

theorem insertProposed_fold_covers (tenant : Nat) :
    ∀ (cs : List Candidate) (st : List MatchRec × Nat), ∀ c ∈ cs,
      ∃ m ∈ (cs.foldl (insertProposed tenant) st).1,
        m.tenant_id = tenant ∧ m.invoice_id = c.invoice_id ∧
        m.bank_transaction_id = c.bank_transaction_id := by
  intro cs
  induction cs with
  | nil => intro st c h; simp at h
  | cons c0 cs ih =>
    intro st c hc
    rw [List.foldl_cons]
    rcases List.mem_cons.mp hc with rfl | hc
    · by_cases hany : (st.1.any fun m =>
        decide (m.tenant_id = tenant ∧ m.invoice_id = c.invoice_id ∧
          m.bank_transaction_id = c.bank_transaction_id)) = true
      · rcases List.any_eq_true.mp hany with ⟨m, hm, hmp⟩
        refine ⟨m, insertProposed_fold_sub tenant cs _ m ?_, of_decide_eq_true hmp⟩
        rw [insertProposed, if_pos hany]
        exact hm
      · refine ⟨⟨st.2, tenant, c.invoice_id, c.bank_transaction_id, c.score,
          MatchStatus.proposed⟩, insertProposed_fold_sub tenant cs _ _ ?_, rfl, rfl, rfl⟩
        rw [insertProposed, if_neg hany]
        exact List.mem_append_right _ (List.mem_singleton.mpr rfl)
    · exact ih _ c hc

theorem insertProposed_fold_of_covered (tenant : Nat) :
    ∀ (cs : List Candidate) (st : List MatchRec × Nat),
      (∀ c ∈ cs, ∃ m ∈ st.1, m.tenant_id = tenant ∧ m.invoice_id = c.invoice_id ∧
        m.bank_transaction_id = c.bank_transaction_id) →
      cs.foldl (insertProposed tenant) st = st := by
  intro cs
  induction cs with
  | nil => intro st _; rfl
  | cons c cs ih =>
    intro st h
    rw [List.foldl_cons]
    have hstep : insertProposed tenant st c = st := by
      rcases h c (List.mem_cons_self _ _) with ⟨m, hm, h1, h2, h3⟩
      rw [insertProposed, if_pos]
      exact List.any_eq_true.mpr ⟨m, hm, decide_eq_true ⟨h1, h2, h3⟩⟩
    rw [hstep]
    exact ih st fun c' hc' => h c' (List.mem_cons_of_mem _ hc')

theorem reconcile_open_eq (db : DB) (tenant t2 : Nat) :
    getOpenInvoices (reconcile db tenant).1 t2 = getOpenInvoices db t2 := by
  rw [getOpenInvoices, getOpenInvoices, reconcile_invoices]

theorem reconcile_unmatched_eq (db : DB) (tenant t2 : Nat) :
    getUnmatchedTransactions (reconcile db tenant).1 t2 = getUnmatchedTransactions db t2 := by
  rw [getUnmatchedTransactions, getUnmatchedTransactions, reconcile_transactions]
  apply List.filter_congr
  intro t _
  have hany : ((reconcile db tenant).1.matchRows.any fun m =>
      decide (m.tenant_id = t2 ∧ m.status = MatchStatus.confirmed ∧
        m.bank_transaction_id = t.id)) =
      (db.matchRows.any fun m =>
        decide (m.tenant_id = t2 ∧ m.status = MatchStatus.confirmed ∧
          m.bank_transaction_id = t.id)) := by
    rcases hb : db.matchRows.any fun m =>
        decide (m.tenant_id = t2 ∧ m.status = MatchStatus.confirmed ∧
          m.bank_transaction_id = t.id) with _ | _
    · rw [Bool.eq_false_iff]
      intro habs
      rcases List.any_eq_true.mp habs with ⟨m, hm, hp⟩
      rw [reconcile_matchRows] at hm
      rcases insertProposed_fold_mem tenant _ _ m hm with hm | ⟨_, _, _, _, _, hst⟩
      · rw [Bool.eq_false_iff] at hb
        exact hb (List.any_eq_true.mpr ⟨m, hm, hp⟩)
      · have := (of_decide_eq_true hp).2.1
        rw [hst] at this
        exact absurd this (by simp)
    · rcases List.any_eq_true.mp hb with ⟨m, hm, hp⟩
      refine List.any_eq_true.mpr ⟨m, ?_, hp⟩
      rw [reconcile_matchRows]
      exact insertProposed_fold_sub tenant _ _ m hm
  rw [hany]

/-- Appending a row whose triple is fresh keeps the triple-uniqueness. -/
theorem uniqTriples_append (m0 : MatchRec) :
    ∀ ms, uniqTriples ms = true →
      (ms.any fun m => decide (m.tenant_id = m0.tenant_id ∧ m.invoice_id = m0.invoice_id ∧
        m.bank_transaction_id = m0.bank_transaction_id)) = false →
      uniqTriples (ms ++ [m0]) = true := by
  intro ms
  induction ms with
  | nil => intro _ _; simp [uniqTriples]
  | cons m ms ih =>
    intro hu hany
    simp only [List.any_cons, Bool.or_eq_false_iff] at hany
    simp only [uniqTriples, Bool.and_eq_true, Bool.not_eq_true'] at hu
    simp only [List.cons_append, uniqTriples, Bool.and_eq_true, Bool.not_eq_true',
      List.append_eq, List.any_append, Bool.or_eq_false_iff, List.any_cons, List.any_nil,
      Bool.or_false]
    refine ⟨⟨hu.1, ?_⟩, ih hu.2 hany.2⟩
    exact hany.1

theorem insertProposed_fold_uniq (tenant : Nat) :
    ∀ (cs : List Candidate) (st : List MatchRec × Nat),
      uniqTriples st.1 = true → uniqTriples (cs.foldl (insertProposed tenant) st).1 = true := by
  intro cs
  induction cs with
  | nil => intro st h; exact h
  | cons c cs ih =>
    intro st h
    rw [List.foldl_cons]
    apply ih
    rw [insertProposed]
    split
    · exact h
    · rename_i hany
      exact uniqTriples_append _ st.1 h (Bool.not_eq_true _ ▸ (by simpa using hany))

/-- **C3.** `reconcile` is idempotent on the Match table: running it twice on
an unchanged set of open invoices and unmatched transactions produces the same
set of PROPOSED Match rows (the second run's table and candidate list equal
the first run's), and it never creates two Match rows for the same
(tenant, invoice, transaction) triple (triple-uniqueness is preserved). -/
theorem C3_reconcile_idempotent (db : DB) (tenant : Nat) :
    (reconcile (reconcile db tenant).1 tenant).1.matchRows =
      (reconcile db tenant).1.matchRows ∧
    (reconcile (reconcile db tenant).1 tenant).2.candidates =
      (reconcile db tenant).2.candidates ∧
    (uniqTriples db.matchRows = true →
      uniqTriples (reconcile db tenant).1.matchRows = true) := by
  have hcands : (reconcile (reconcile db tenant).1 tenant).2.candidates =
      (reconcile db tenant).2.candidates := by
    rw [reconcile_candidates, reconcile_candidates, reconcile_open_eq, reconcile_unmatched_eq]
  refine ⟨?_, hcands, ?_⟩
  · rw [reconcile_matchRows (reconcile db tenant).1 tenant, reconcile_open_eq,
      reconcile_unmatched_eq]
    have hcov : ∀ c ∈ (bestMatches (getOpenInvoices db tenant)
        (getUnmatchedTransactions db tenant)).map Prod.snd,
        ∃ m ∈ (reconcile db tenant).1.matchRows, m.tenant_id = tenant ∧
          m.invoice_id = c.invoice_id ∧ m.bank_transaction_id = c.bank_transaction_id := by
      intro c hc
      rw [reconcile_matchRows]
      exact insertProposed_fold_covers tenant _ _ c hc
    have := insertProposed_fold_of_covered tenant
      ((bestMatches (getOpenInvoices db tenant)
        (getUnmatchedTransactions db tenant)).map Prod.snd)
      ((reconcile db tenant).1.matchRows, (reconcile db tenant).1.nextMatchId) hcov
    rw [this]
  · intro h
    rw [reconcile_matchRows]
    exact insertProposed_fold_uniq tenant _ _ h

/-- Witness for `C3_reconcile_idempotent`: triple-uniqueness holds in the
concrete store and is preserved by a run. -/
theorem C3_reconcile_idempotent_witness :
    uniqTriples cDB.matchRows = true ∧ uniqTriples (reconcile cDB 1).1.matchRows = true :=
  ⟨by decide, (C3_reconcile_idempotent cDB 1).2.2 (by decide)⟩

/-! ## Claim C4: confirming a match -/

/-- **C4.** `confirm(tenant, match_id)` fails with NotFound exactly when no
match with that id and tenant exists in status PROPOSED (an
already-CONFIRMED or REJECTED match cannot be re-confirmed); on success it
sets the match status to CONFIRMED and the associated invoice status to
MATCHED in the same single state transition (one commit), so both writes land
together. -/
theorem C4_confirm_match (db : DB) (tenant mid : Nat) :
    (confirmMatch db tenant mid = Except.error ServiceError.notFound ↔
      ¬ ∃ m ∈ db.matchRows, m.id = mid ∧ m.tenant_id = tenant ∧
        m.status = MatchStatus.proposed) ∧
    (∀ db' m, confirmMatch db tenant mid = Except.ok (db', m) →
      m.status = MatchStatus.confirmed ∧
      (∃ m0 ∈ db.matchRows, m0.id = mid ∧ m0.tenant_id = tenant ∧
        m0.status = MatchStatus.proposed ∧ m = { m0 with status := MatchStatus.confirmed }) ∧
      m ∈ db'.matchRows ∧
      (∀ x ∈ db'.matchRows, x.id = mid → x.status = MatchStatus.confirmed) ∧
      (∀ inv ∈ db'.invoices, inv.id = m.invoice_id → inv.status = InvoiceStatus.matched) ∧
      ((∃ inv ∈ db.invoices, inv.id = m.invoice_id) →
        ∃ inv ∈ db'.invoices, inv.id = m.invoice_id ∧
          inv.status = InvoiceStatus.matched)) := by
  constructor
  · cases hf : db.matchRows.find? fun m =>
        decide (m.id = mid ∧ m.tenant_id = tenant ∧ m.status = MatchStatus.proposed) with
    | none =>
      apply iff_of_true
      · rw [confirmMatch, hf]
      · intro ⟨m, hm, hp⟩
        have := List.find?_eq_none.mp hf m hm
        exact this (decide_eq_true hp)
    | some m0 =>
      apply iff_of_false
      · rw [confirmMatch, hf]
        simp
      · intro habs
        have hp0 := List.find?_some hf
        exact habs ⟨m0, List.mem_of_find?_eq_some hf,
          of_decide_eq_true (by simpa using hp0)⟩
  · intro db' m hok
    rw [confirmMatch] at hok
    cases hf : db.matchRows.find? fun m =>
        decide (m.id = mid ∧ m.tenant_id = tenant ∧ m.status = MatchStatus.proposed) with
    | none => rw [hf] at hok; exact absurd hok (by simp)
    | some m0 =>
      rw [hf] at hok
      have hp0 := List.find?_some hf
      have hp : m0.id = mid ∧ m0.tenant_id = tenant ∧ m0.status = MatchStatus.proposed :=
        of_decide_eq_true (by simpa using hp0)
      have hmem := List.mem_of_find?_eq_some hf
      have hok' := hok
      simp only [Except.ok.injEq, Prod.mk.injEq] at hok'
      obtain ⟨hdb', hm⟩ := hok'
      subst hm
      refine ⟨rfl, ⟨m0, hmem, hp.1, hp.2.1, hp.2.2, rfl⟩, ?_, ?_, ?_, ?_⟩
      · rw [← hdb']
        dsimp only
        exact List.mem_map.mpr ⟨m0, hmem, by rw [if_pos rfl]⟩
      · intro x hx hxid
        rw [← hdb'] at hx
        dsimp only at hx
        rcases List.mem_map.mp hx with ⟨y, hy, he⟩
        by_cases hyid : y.id = m0.id
        · rw [if_pos hyid] at he
          rw [← he]
        · rw [if_neg hyid] at he
          subst he
          exact absurd (hxid.trans hp.1.symm) hyid
      · intro inv hinv hid
        rw [← hdb'] at hinv
        dsimp only at hinv
        cases hfi : db.invoices.find? fun i => decide (i.id = m0.invoice_id) with
        | none =>
          rw [hfi] at hinv
          have := List.find?_eq_none.mp hfi inv hinv
          exact absurd (decide_eq_true hid) this
        | some i0 =>
          rw [hfi] at hinv
          rcases List.mem_map.mp hinv with ⟨y, hy, he⟩
          by_cases hyid : y.id = m0.invoice_id
          · rw [if_pos hyid] at he
            rw [← he]
          · rw [if_neg hyid] at he
            subst he
            exact absurd hid hyid
      · intro ⟨inv, hinv, hid⟩
        rw [← hdb']
        dsimp only
        cases hfi : db.invoices.find? fun i => decide (i.id = m0.invoice_id) with
        | none =>
          have := List.find?_eq_none.mp hfi inv hinv
          exact absurd (decide_eq_true hid) this
        | some i0 =>
          refine ⟨{ inv with status := InvoiceStatus.matched },
            List.mem_map.mpr ⟨inv, hinv, by rw [if_pos hid]⟩, hid, rfl⟩

/-- Witness for `C4_confirm_match`: an unknown id is NotFound, and confirming
the proposed match of the concrete store flips it to CONFIRMED. -/
theorem C4_confirm_match_witness :
    confirmMatch cDBm 1 99 = Except.error ServiceError.notFound ∧
    ({ cMatch with status := MatchStatus.confirmed } : MatchRec).status =
      MatchStatus.confirmed :=
  ⟨(C4_confirm_match cDBm 1 99).1.mpr (by decide),
   ((C4_confirm_match cDBm 1 5).2 cDBmAfter { cMatch with status := MatchStatus.confirmed }
      (by rfl)).1⟩

/-! ## Per-invoice argmax characterization (C5) -/

theorem argmaxInv_step (inv : InvoiceRec) (processed : List TxnRec) (acc : Option Candidate)
    (t : TxnRec) (h : argmaxInv inv processed acc) :
    argmaxInv inv (processed ++ [t]) (perInvoiceStep inv acc t) := by
  by_cases hs : surviving inv t
  · rw [perInvoiceStep.eq_def, if_neg (not_not.mpr hs.1), if_pos hs.2]
    rcases h with ⟨hacc, hall⟩ | ⟨pre, t0, post, heq, hs0, hacc, hmax, hfirst⟩
    · subst hacc
      right
      refine ⟨processed, t, [], rfl, hs, rfl, ?_, ?_⟩
      · intro t' ht' hst'
        rcases List.mem_append.mp ht' with h' | h'
        · exact absurd hst' (hall t' h')
        · simp only [List.mem_singleton] at h'
          subst h'
          exact le_refl _
      · intro t' ht' hst'
        exact absurd hst' (hall t' ht')
    · subst hacc
      dsimp only
      have hscore : (mkCand inv t0).score = (calculateMatchScore inv t0).1 := by
        rw [mkCand_score]
      by_cases hlt : (mkCand inv t0).score < (calculateMatchScore inv t).1
      · rw [if_pos hlt]
        rw [hscore] at hlt
        right
        refine ⟨processed, t, [], rfl, hs, rfl, ?_, ?_⟩
        · intro t' ht' hst'
          rcases List.mem_append.mp ht' with h' | h'
          · exact le_of_lt (lt_of_le_of_lt (hmax t' (heq ▸ h') hst') hlt)
          · simp only [List.mem_singleton] at h'
            subst h'
            exact le_refl _
        · intro t' ht' hst'
          exact lt_of_le_of_lt (hmax t' (heq ▸ ht') hst') hlt
      · rw [if_neg hlt]
        rw [hscore] at hlt
        right
        refine ⟨pre, t0, post ++ [t], by rw [heq]; simp, hs0, rfl, ?_, hfirst⟩
        intro t' ht' hst'
        rcases List.mem_append.mp ht' with h' | h'
        · exact hmax t' (heq ▸ h') hst'
        · simp only [List.mem_singleton] at h'
          subst h'
          exact not_lt.mp hlt
  · have hstep : perInvoiceStep inv acc t = acc := by
      rw [perInvoiceStep.eq_def]
      by_cases hc : inv.currency ≠ t.currency
      · rw [if_pos hc]
      · rw [if_neg hc]
        rw [if_neg (fun hthr => hs ⟨not_not.mp hc, hthr⟩)]
    rw [hstep]
    rcases h with ⟨hacc, hall⟩ | ⟨pre, t0, post, heq, hs0, hacc, hmax, hfirst⟩
    · left
      refine ⟨hacc, ?_⟩
      intro t' ht'
      rcases List.mem_append.mp ht' with h' | h'
      · exact hall t' h'
      · simp only [List.mem_singleton] at h'
        subst h'
        exact hs
    · right
      refine ⟨pre, t0, post ++ [t], by rw [heq]; simp, hs0, hacc, ?_, hfirst⟩
      intro t' ht' hst'
      rcases List.mem_append.mp ht' with h' | h'
      · exact hmax t' (heq ▸ h') hst'
      · simp only [List.mem_singleton] at h'
        subst h'
        exact absurd hst' hs

theorem argmaxInv_fold (inv : InvoiceRec) :
    ∀ (ts processed : List TxnRec) (acc : Option Candidate),
      argmaxInv inv processed acc →
      argmaxInv inv (processed ++ ts) (ts.foldl (perInvoiceStep inv) acc) := by
  intro ts
  induction ts with
  | nil => intro processed acc h; simpa using h
  | cons t ts ih =>
    intro processed acc h
    rw [List.foldl_cons]
    have h1 := argmaxInv_step inv processed acc t h
    have h2 := ih (processed ++ [t]) _ h1
    simpa using h2

theorem argmaxInv_run (inv : InvoiceRec) (txns : List TxnRec) :
    argmaxInv inv txns (txns.foldl (perInvoiceStep inv) none) := by
  have := argmaxInv_fold inv txns [] none (Or.inl ⟨rfl, by simp⟩)
  simpa using this

theorem foldl_considerTxn_find_self (inv : InvoiceRec) :
    ∀ (txns : List TxnRec) (bm : List (Nat × Candidate)),
      dictFind inv.id (txns.foldl (considerTxn inv) bm) =
        txns.foldl (perInvoiceStep inv) (dictFind inv.id bm) := by
  intro txns
  induction txns with
  | nil => intro bm; rfl
  | cons t ts ih =>
    intro bm
    rw [List.foldl_cons, List.foldl_cons, ih, considerTxn_find_self]

theorem foldl_considerTxn_find_ne (inv : InvoiceRec) (k : Nat) (h : k ≠ inv.id) :
    ∀ (txns : List TxnRec) (bm : List (Nat × Candidate)),
      dictFind k (txns.foldl (considerTxn inv) bm) = dictFind k bm := by
  intro txns
  induction txns with
  | nil => intro bm; rfl
  | cons t ts ih =>
    intro bm
    rw [List.foldl_cons, ih, considerTxn_find_ne _ _ _ _ h]

/-- The entry of each open invoice in `best_matches` is exactly the result of
folding the per-invoice step over the transaction list. -/
theorem bestMatches_find (invoices : List InvoiceRec) (txns : List TxnRec)
    (inv : InvoiceRec) (hnd : (invoices.map (·.id)).Nodup) (hmem : inv ∈ invoices) :
    dictFind inv.id (bestMatches invoices txns) =
      txns.foldl (perInvoiceStep inv) none := by
  rcases List.append_of_mem hmem with ⟨pre, post, rfl⟩
  have hnd' := hnd
  rw [List.map_append, List.map_cons, List.nodup_append] at hnd'
  obtain ⟨hnp, hncons, hdisj⟩ := hnd'
  rw [List.nodup_cons] at hncons
  have hpreid : inv.id ∉ pre.map (·.id) := fun hmem' => hdisj hmem' (List.mem_cons_self _ _)
  have hpostid : ∀ x ∈ post, x.id ≠ inv.id := by
    intro x hx he
    exact hncons.1 (he ▸ List.mem_map.mpr ⟨x, hx, rfl⟩)
  rw [bestMatches, List.foldl_append, List.foldl_cons]
  have hpost : ∀ (ps : List InvoiceRec), (∀ x ∈ ps, x.id ≠ inv.id) → ∀ bm,
      dictFind inv.id (ps.foldl (fun bm inv' => txns.foldl (considerTxn inv') bm) bm) =
        dictFind inv.id bm := by
    intro ps
    induction ps with
    | nil => intro _ bm; rfl
    | cons p ps ih =>
      intro hne bm
      rw [List.foldl_cons, ih (fun x hx => hne x (List.mem_cons_of_mem _ hx))]
      exact foldl_considerTxn_find_ne p inv.id
        (fun he => hne p (List.mem_cons_self _ _) he.symm) txns bm
  rw [hpost post hpostid]
  rw [foldl_considerTxn_find_self]
  have hkeys : ∀ kv ∈ pre.foldl (fun bm inv' => txns.foldl (considerTxn inv') bm)
      ([] : List (Nat × Candidate)), kv.1 ∈ pre.map (·.id) := by
    apply foldl_invariant
      (fun bm : List (Nat × Candidate) => ∀ kv ∈ bm, kv.1 ∈ pre.map (·.id))
    · intro bm inv' hinv' hbm
      apply foldl_invariant
        (fun bm : List (Nat × Candidate) => ∀ kv ∈ bm, kv.1 ∈ pre.map (·.id))
      · intro bm' t _ hbm' kv hkv
        rcases mem_considerTxn inv' t bm' kv hkv with hkv | ⟨he, _, _⟩
        · exact hbm' kv hkv
        · subst he
          exact List.mem_map.mpr ⟨inv', hinv', rfl⟩
      · exact hbm
    · intro kv hkv
      simp at hkv
  cases hdf : dictFind inv.id
      (pre.foldl (fun bm inv' => txns.foldl (considerTxn inv') bm) []) with
  | none => rfl
  | some c =>
    have := hkeys _ (mem_of_dictFind _ _ _ hdf)
    exact absurd this hpreid

/-- **C5.** The candidate set returned by `reconcile` contains at most one
candidate per invoice; every candidate's score is at least 20.00; and for
each invoice the kept candidate is the highest-scoring surviving transaction,
with ties broken in favor of the first-encountered transaction in iteration
order. -/
theorem C5_best_per_invoice (db : DB) (tenant : Nat)
    (hnd : ((getOpenInvoices db tenant).map (·.id)).Nodup) :
    (∀ c1 ∈ (reconcile db tenant).2.candidates, ∀ c2 ∈ (reconcile db tenant).2.candidates,
      c1.invoice_id = c2.invoice_id → c1 = c2) ∧
    (∀ c ∈ (reconcile db tenant).2.candidates, MIN_SCORE_THRESHOLD ≤ c.score) ∧
    (∀ inv ∈ getOpenInvoices db tenant, ∀ c ∈ (reconcile db tenant).2.candidates,
      c.invoice_id = inv.id →
      ∃ pre t post, getUnmatchedTransactions db tenant = pre ++ t :: post ∧
        surviving inv t ∧ c = mkCand inv t ∧
        (∀ t' ∈ getUnmatchedTransactions db tenant, surviving inv t' →
          (calculateMatchScore inv t').1 ≤ (calculateMatchScore inv t).1) ∧
        (∀ t' ∈ pre, surviving inv t' →
          (calculateMatchScore inv t').1 < (calculateMatchScore inv t).1)) := by
  have hbmnd := bestMatches_keys_nodup (getOpenInvoices db tenant)
    (getUnmatchedTransactions db tenant)
  refine ⟨?_, ?_, ?_⟩
  · intro c1 hc1 c2 hc2 hid
    rw [reconcile_candidates] at hc1 hc2
    rcases List.mem_map.mp hc1 with ⟨kv1, hkv1, he1⟩
    rcases List.mem_map.mp hc2 with ⟨kv2, hkv2, he2⟩
    have h1 := (bestMatches_sound _ _ kv1 hkv1).1
    have h2 := (bestMatches_sound _ _ kv2 hkv2).1
    have hk : kv1.1 = kv2.1 := by rw [← h1, ← h2, he1, he2, hid]
    have hf1 := dictFind_of_mem kv1.1 kv1.2 _ hbmnd (by rw [← @Prod.mk.eta _ _ kv1] at hkv1; exact hkv1)
    have hf2 := dictFind_of_mem kv2.1 kv2.2 _ hbmnd (by rw [← @Prod.mk.eta _ _ kv2] at hkv2; exact hkv2)
    rw [hk] at hf1
    rw [hf1] at hf2
    rw [← he1, ← he2]
    exact Option.some.inj hf2
  · intro c hc
    rw [reconcile_candidates] at hc
    rcases List.mem_map.mp hc with ⟨kv, hkv, he⟩
    rcases bestMatches_sound _ _ kv hkv with ⟨_, inv, _, t, _, _, _, hthr, hce⟩
    rw [← he, hce, mkCand_score]
    exact hthr
  · intro inv hinv c hc hid
    rw [reconcile_candidates] at hc
    rcases List.mem_map.mp hc with ⟨kv, hkv, he⟩
    have hkey := (bestMatches_sound _ _ kv hkv).1
    have hf := dictFind_of_mem kv.1 kv.2 _ hbmnd (by rw [← @Prod.mk.eta _ _ kv] at hkv; exact hkv)
    have hkinv : kv.1 = inv.id := by rw [← hkey, he, hid]
    rw [hkinv] at hf
    rw [bestMatches_find _ _ inv hnd hinv] at hf
    have hchar := argmaxInv_run inv (getUnmatchedTransactions db tenant)
    rw [hf] at hchar
    rcases hchar with ⟨habs, _⟩ | ⟨pre, t, post, heq, hs, hacc, hmax, hfirst⟩
    · exact absurd habs (by simp)
    · refine ⟨pre, t, post, heq, hs, ?_, hmax, hfirst⟩
      rw [← he]
      exact Option.some.inj hacc

set_option maxRecDepth 100000 in
/-- Witness for `C5_best_per_invoice`: the concrete store's single candidate
meets the threshold. -/
theorem C5_best_per_invoice_witness :
    MIN_SCORE_THRESHOLD ≤ (mkCand cInv cTx).score :=
  (C5_best_per_invoice cDB 1 (by decide)).2.1 (mkCand cInv cTx) (by decide)

/-! ## Import loop lemmas -/

theorem importStep_fold_newRows_nil (table : List TxnRec) (tenant : Nat) :
    ∀ (items : List TxnCreate) (st : LoopOut),
      (∀ i ∈ items, (dedupItem table tenant i).isSome = true) →
      (items.foldl (importStep table tenant) st).newRows = st.newRows := by
  intro items
  induction items with
  | nil => intro st _; rfl
  | cons item items ih =>
    intro st h
    rw [List.foldl_cons]
    have hsome := h item (List.mem_cons_self _ _)
    rw [ih _ fun i hi => h i (List.mem_cons_of_mem _ hi)]
    rw [importStep]
    cases hd : dedupItem table tenant item with
    | none => rw [hd] at hsome; simp at hsome
    | some ex => rfl

theorem importStep_fold_created_len (table : List TxnRec) (tenant : Nat) :
    ∀ (items : List TxnCreate) (st : LoopOut),
      (items.foldl (importStep table tenant) st).created.length =
        st.created.length + items.length := by
  intro items
  induction items with
  | nil => intro st; rfl
  | cons item items ih =>
    intro st
    rw [List.foldl_cons, ih]
    rw [importStep]
    cases dedupItem table tenant item <;> simp <;> omega

theorem getResult_eq_none {db : DB} {tenant : Nat} {k : String}
    (h : getPayloadHash db tenant k = none) : getResult db tenant k = none := by
  rw [getPayloadHash, Option.map_eq_none'] at h
  rw [getResult, h]
  rfl

/-- Fresh key, nothing to insert, something created (lines 73-85): the call
records the result and reports a replay. -/
theorem import_all_deduped (db : DB) (tenant : Nat) (items : List TxnCreate)
    (k : String) (hkey : getPayloadHash db tenant k = none)
    (hnew : (importLoop db.transactions tenant db.nextTxnId items).newRows = [])
    (hcr : (importLoop db.transactions tenant db.nextTxnId items).created ≠ []) :
    importTransactions db tenant items (some k) =
      Except.ok
        (storeResult db tenant k (hashPayload items)
          ((importLoop db.transactions tenant db.nextTxnId items).created.map (·.id)),
         (importLoop db.transactions tenant db.nextTxnId items).created, true) := by
  have hres := getResult_eq_none hkey
  rw [importTransactions]
  simp only [hkey, hres]
  rw [if_neg (by simp)]
  rw [replayCheck, hres]
  simp only []
  rw [if_pos ⟨hnew, hcr⟩]

/-! ## Claim C10: replayed = true from pure natural-key dedup -/

/-- **C10.** When `import` is called with an idempotency key for which no
record exists and every item of the batch resolves to an existing transaction
row via its `(tenant, external_id)` natural key, no rows need inserting and
the call returns `replayed = true` (storing a fresh idempotency record): a
first call with a fresh key can report `replayed = true`. -/
theorem C10_natural_key_replay (db : DB) (tenant : Nat) (items : List TxnCreate)
    (k : String) (hkey : getPayloadHash db tenant k = none)
    (hresolve : ∀ item ∈ items, (dedupItem db.transactions tenant item).isSome = true)
    (hne : items ≠ []) :
    importTransactions db tenant items (some k) =
      Except.ok
        (storeResult db tenant k (hashPayload items)
          ((importLoop db.transactions tenant db.nextTxnId items).created.map (·.id)),
         (importLoop db.transactions tenant db.nextTxnId items).created, true) := by
  have hnew : (importLoop db.transactions tenant db.nextTxnId items).newRows = [] := by
    rw [importLoop]
    exact importStep_fold_newRows_nil _ _ items _ hresolve
  have hcr : (importLoop db.transactions tenant db.nextTxnId items).created ≠ [] := by
    intro habs
    apply hne
    have := importStep_fold_created_len db.transactions tenant items ⟨[], [], db.nextTxnId⟩
    rw [importLoop] at habs
    rw [habs] at this
    simp at this
    exact List.eq_nil_of_length_eq_zero this.symm
  exact import_all_deduped db tenant items k hkey hnew hcr

/-- Witness for `C10_natural_key_replay`: a fresh key over a batch whose only
item dedups to the committed row with external id "X". -/
theorem C10_natural_key_replay_witness :
    importTransactions cDBx 1 [cItemX] (some "K") =
      Except.ok
        (storeResult cDBx 1 "K" (hashPayload [cItemX])
          ((importLoop cDBx.transactions 1 cDBx.nextTxnId [cItemX]).created.map (·.id)),
         (importLoop cDBx.transactions 1 cDBx.nextTxnId [cItemX]).created, true) :=
  C10_natural_key_replay cDBx 1 [cItemX] "K" (by decide) (by decide) (by decide)

/-! ## Import computation lemmas -/

theorem storeResult_transactions (db : DB) (t : Nat) (k : String) (h : List TxnCreate)
    (ids : List Nat) : (storeResult db t k h ids).transactions = db.transactions := by
  rw [storeResult]
  split <;> rfl

theorem storeResult_nextTxnId (db : DB) (t : Nat) (k : String) (h : List TxnCreate)
    (ids : List Nat) : (storeResult db t k h ids).nextTxnId = db.nextTxnId := by
  rw [storeResult]
  split <;> rfl

theorem storeResult_fresh_find (db : DB) (t : Nat) (k : String) (h : List TxnCreate)
    (ids : List Nat) (hkey : getPayloadHash db t k = none) :
    (storeResult db t k h ids).idemRecords.find?
        (fun r => decide (r.tenant_id = t ∧ r.key = k)) =
      some ⟨t, k, h, ids⟩ := by
  rw [getPayloadHash, Option.map_eq_none'] at hkey
  rw [storeResult, if_neg]
  · dsimp only
    rw [List.find?_append, hkey]
    simp
  · intro hany
    rcases List.any_eq_true.mp hany with ⟨r, hr, hp⟩
    have := List.find?_eq_none.mp hkey r hr
    exact this hp

theorem getPayloadHash_storeResult_fresh (db : DB) (t : Nat) (k : String)
    (h : List TxnCreate) (ids : List Nat) (hkey : getPayloadHash db t k = none) :
    getPayloadHash (storeResult db t k h ids) t k = some h := by
  rw [getPayloadHash, storeResult_fresh_find db t k h ids hkey]
  rfl

theorem getResult_storeResult_fresh (db : DB) (t : Nat) (k : String)
    (h : List TxnCreate) (ids : List Nat) (hkey : getPayloadHash db t k = none) :
    getResult (storeResult db t k h ids) t k = some ids := by
  rw [getResult, storeResult_fresh_find db t k h ids hkey]
  rfl

/-- The early conflict (lines 26-29): stored hash differs, nothing happens. -/
theorem import_conflict (db : DB) (tenant : Nat) (items : List TxnCreate) (k : String)
    (h : List TxnCreate) (hkey : getPayloadHash db tenant k = some h)
    (hne : h ≠ hashPayload items) :
    importTransactions db tenant items (some k) = Except.error ServiceError.conflict := by
  rw [importTransactions]
  simp only [hkey]
  rw [if_pos (by simp [hne])]

/-- The replay short-circuit (lines 31-45): equal hash and a non-empty stored
id list resolving to equally many rows returns those rows with
`replayed = true` and no writes. -/
theorem import_replay (db : DB) (tenant : Nat) (items : List TxnCreate) (k : String)
    (ids : List Nat) (hkey : getPayloadHash db tenant k = some (hashPayload items))
    (hres : getResult db tenant k = some ids) (hne : ids ≠ [])
    (hlen : (db.transactions.filter fun t =>
        ids.contains t.id && decide (t.tenant_id = tenant)).length = ids.length) :
    importTransactions db tenant items (some k) =
      Except.ok
        (db, db.transactions.filter fun t =>
          ids.contains t.id && decide (t.tenant_id = tenant), true) := by
  rw [importTransactions]
  simp only [hkey]
  rw [if_neg (by simp)]
  rw [replayCheck, hres]
  simp only []
  rw [if_neg hne, if_pos hlen]

/-- The commit path with a fresh key and new rows (lines 87-111): the rows are
appended in one commit and the idempotency record is stored afterwards. -/
theorem import_with_new (db : DB) (tenant : Nat) (items : List TxnCreate) (k : String)
    (hkey : getPayloadHash db tenant k = none)
    (hnew : (importLoop db.transactions tenant db.nextTxnId items).newRows ≠ [])
    (hconf : extConflict db.transactions
      (importLoop db.transactions tenant db.nextTxnId items).newRows = false) :
    importTransactions db tenant items (some k) =
      Except.ok
        (storeResult
          { db with
            transactions := db.transactions ++
              (importLoop db.transactions tenant db.nextTxnId items).newRows,
            nextTxnId := (importLoop db.transactions tenant db.nextTxnId items).nextId }
          tenant k (hashPayload items)
          ((importLoop db.transactions tenant db.nextTxnId items).created.map (·.id)),
         (importLoop db.transactions tenant db.nextTxnId items).created, false) := by
  have hres := getResult_eq_none hkey
  rw [importTransactions]
  simp only [hkey, hres]
  rw [if_neg (by simp)]
  rw [replayCheck, hres]
  simp only []
  rw [if_neg (fun hc => hnew hc.1)]
  rw [if_neg (fun hc => by rw [hconf] at hc; exact Bool.false_ne_true hc.2)]
  rw [if_pos hnew]

/-- The same commit path without an idempotency key. -/
theorem import_none_key (db : DB) (tenant : Nat) (items : List TxnCreate)
    (hconf : ((importLoop db.transactions tenant db.nextTxnId items).newRows ≠ [] →
      extConflict db.transactions
        (importLoop db.transactions tenant db.nextTxnId items).newRows = false)) :
    importTransactions db tenant items none =
      Except.ok
        ({ db with
            transactions := db.transactions ++
              (importLoop db.transactions tenant db.nextTxnId items).newRows,
            nextTxnId := (importLoop db.transactions tenant db.nextTxnId items).nextId },
         (importLoop db.transactions tenant db.nextTxnId items).created, false) := by
  rw [importTransactions]
  simp only []
  rw [if_neg (by simp)]
  rw [if_neg (fun hc => by rw [hconf hc.1] at hc; exact Bool.false_ne_true hc.2)]

/-- Without a key, a batch whose staged rows trip the unique index fails. -/
theorem import_none_key_conflict (db : DB) (tenant : Nat) (items : List TxnCreate)
    (hnew : (importLoop db.transactions tenant db.nextTxnId items).newRows ≠ [])
    (hconf : extConflict db.transactions
      (importLoop db.transactions tenant db.nextTxnId items).newRows = true) :
    importTransactions db tenant items none = Except.error ServiceError.persistence := by
  rw [importTransactions]
  simp only []
  rw [if_neg (by simp)]
  rw [if_pos ⟨hnew, hconf⟩]

/-! ## Import loop provenance and uniqueness lemmas -/

theorem dedupItem_some_facts {table : List TxnRec} {tenant : Nat} {item : TxnCreate}
    {x : TxnRec} (h : dedupItem table tenant item = some x) :
    x ∈ table ∧ x.tenant_id = tenant ∧ x.external_id = item.external_id ∧
      item.external_id.isSome = true := by
  rw [dedupItem] at h
  cases he : item.external_id with
  | none => rw [he] at h; simp at h
  | some e =>
    rw [he] at h
    have hp0 := List.find?_some h
    have hmem := List.mem_of_find?_eq_some h
    have hp : x.tenant_id = tenant ∧ x.external_id = some e :=
      of_decide_eq_true (by simpa using hp0)
    exact ⟨hmem, hp.1, hp.2, rfl⟩

theorem dedupItem_none_facts {table : List TxnRec} {tenant : Nat} {item : TxnCreate}
    {e : String} (h : dedupItem table tenant item = none)
    (he : item.external_id = some e) :
    ∀ r ∈ table, ¬(r.tenant_id = tenant ∧ r.external_id = some e) := by
  rw [dedupItem, he] at h
  intro r hr hp
  exact (List.find?_eq_none.mp h r hr) (decide_eq_true hp)

theorem importStep_fold_newRows_mono (table : List TxnRec) (tenant : Nat) :
    ∀ (items : List TxnCreate) (st : LoopOut) (x : TxnRec), x ∈ st.newRows →
      x ∈ (items.foldl (importStep table tenant) st).newRows := by
  intro items
  induction items with
  | nil => intro st x h; exact h
  | cons i rest ih =>
    intro st x h
    rw [List.foldl_cons]
    apply ih
    rw [importStep]
    cases dedupItem table tenant i with
    | some ex => exact h
    | none => exact List.mem_append_left _ h

theorem importStep_fold_created_mem (table : List TxnRec) (tenant : Nat) :
    ∀ (items : List TxnCreate) (st : LoopOut) (x : TxnRec),
      x ∈ (items.foldl (importStep table tenant) st).created →
      x ∈ st.created ∨ (∃ i ∈ items, dedupItem table tenant i = some x) ∨
        x ∈ (items.foldl (importStep table tenant) st).newRows := by
  intro items
  induction items with
  | nil => intro st x h; exact Or.inl h
  | cons i rest ih =>
    intro st x h
    rw [List.foldl_cons] at h ⊢
    rcases ih _ x h with h' | ⟨i', hi', hd⟩ | h'
    · rw [importStep] at h'
      cases hd : dedupItem table tenant i with
      | some ex =>
        rw [hd] at h'
        dsimp only at h'
        rcases List.mem_append.mp h' with h' | h'
        · exact Or.inl h'
        · simp only [List.mem_singleton] at h'
          exact Or.inr (Or.inl ⟨i, List.mem_cons_self _ _, h' ▸ hd⟩)
      | none =>
        rw [hd] at h'
        dsimp only at h'
        rcases List.mem_append.mp h' with h' | h'
        · exact Or.inl h'
        · simp only [List.mem_singleton] at h'
          subst h'
          refine Or.inr (Or.inr ?_)
          apply importStep_fold_newRows_mono
          rw [importStep, hd]
          exact List.mem_append_right _ (List.mem_singleton.mpr rfl)
    · exact Or.inr (Or.inl ⟨i', List.mem_cons_of_mem _ hi', hd⟩)
    · exact Or.inr (Or.inr h')

theorem importStep_fold_newRows_mem (table : List TxnRec) (tenant : Nat) :
    ∀ (items : List TxnCreate) (st : LoopOut) (x : TxnRec),
      x ∈ (items.foldl (importStep table tenant) st).newRows →
      x ∈ st.newRows ∨ ∃ i ∈ items, dedupItem table tenant i = none ∧
        x.tenant_id = tenant ∧ x.external_id = i.external_id := by
  intro items
  induction items with
  | nil => intro st x h; exact Or.inl h
  | cons i rest ih =>
    intro st x h
    rw [List.foldl_cons] at h
    rcases ih _ x h with h' | ⟨i', hi', hd, hp⟩
    · rw [importStep] at h'
      cases hd : dedupItem table tenant i with
      | some ex =>
        rw [hd] at h'
        exact Or.inl h'
      | none =>
        rw [hd] at h'
        dsimp only at h'
        rcases List.mem_append.mp h' with h' | h'
        · exact Or.inl h'
        · simp only [List.mem_singleton] at h'
          subst h'
          exact Or.inr ⟨i, List.mem_cons_self _ _, hd, rfl, rfl⟩
    · exact Or.inr ⟨i', List.mem_cons_of_mem _ hi', hd, hp⟩

theorem importStep_fold_nextId_le (table : List TxnRec) (tenant : Nat) :
    ∀ (items : List TxnCreate) (st : LoopOut),
      st.nextId ≤ (items.foldl (importStep table tenant) st).nextId := by
  intro items
  induction items with
  | nil => intro st; exact le_refl _
  | cons i rest ih =>
    intro st
    rw [List.foldl_cons]
    refine le_trans ?_ (ih _)
    rw [importStep]
    cases dedupItem table tenant i with
    | some ex => exact le_refl _
    | none => exact Nat.le_succ _

theorem importStep_fold_newRows_lt (table : List TxnRec) (tenant : Nat) :
    ∀ (items : List TxnCreate) (st : LoopOut),
      (∀ x ∈ st.newRows, x.id < st.nextId) →
      ∀ x ∈ (items.foldl (importStep table tenant) st).newRows,
        x.id < (items.foldl (importStep table tenant) st).nextId := by
  intro items
  induction items with
  | nil => intro st h; exact h
  | cons i rest ih =>
    intro st h
    rw [List.foldl_cons]
    apply ih
    rw [importStep]
    cases dedupItem table tenant i with
    | some ex => exact h
    | none =>
      intro x hx
      dsimp only at hx ⊢
      rcases List.mem_append.mp hx with hx | hx
      · exact lt_trans (h x hx) (Nat.lt_succ_self _)
      · simp only [List.mem_singleton] at hx
        subst hx
        exact Nat.lt_succ_self _

theorem importStep_fold_newRows_ge (table : List TxnRec) (tenant : Nat) (nid : Nat) :
    ∀ (items : List TxnCreate) (st : LoopOut),
      nid ≤ st.nextId → (∀ x ∈ st.newRows, nid ≤ x.id) →
      ∀ x ∈ (items.foldl (importStep table tenant) st).newRows, nid ≤ x.id := by
  intro items
  induction items with
  | nil => intro st _ h; exact h
  | cons i rest ih =>
    intro st hn h
    rw [List.foldl_cons]
    apply ih
    · refine le_trans hn ?_
      rw [importStep]
      cases dedupItem table tenant i with
      | some ex => exact le_refl _
      | none => exact Nat.le_succ _
    · rw [importStep]
      cases dedupItem table tenant i with
      | some ex => exact h
      | none =>
        intro x hx
        dsimp only at hx
        rcases List.mem_append.mp hx with hx | hx
        · exact h x hx
        · simp only [List.mem_singleton] at hx
          subst hx
          exact hn

theorem importStep_fold_newRows_nodup (table : List TxnRec) (tenant : Nat) :
    ∀ (items : List TxnCreate) (st : LoopOut),
      ((st.newRows.map (·.id)).Nodup) → (∀ x ∈ st.newRows, x.id < st.nextId) →
      (((items.foldl (importStep table tenant) st).newRows.map (·.id)).Nodup) := by
  intro items
  induction items with
  | nil => intro st h _; exact h
  | cons i rest ih =>
    intro st h hb
    rw [List.foldl_cons]
    apply ih
    · rw [importStep]
      cases dedupItem table tenant i with
      | some ex => exact h
      | none =>
        dsimp only
        rw [List.map_append]
        rw [List.nodup_append]
        refine ⟨h, by simp, ?_⟩
        intro a ha hb'
        simp only [List.map_cons, List.map_nil, List.mem_singleton] at hb'
        subst hb'
        rcases List.mem_map.mp ha with ⟨y, hy, he⟩
        exact absurd (he ▸ hb y hy) (lt_irrefl _)
    · rw [importStep]
      cases dedupItem table tenant i with
      | some ex => exact hb
      | none =>
        intro x hx
        dsimp only at hx ⊢
        rcases List.mem_append.mp hx with hx | hx
        · exact lt_trans (hb x hx) (Nat.lt_succ_self _)
        · simp only [List.mem_singleton] at hx
          subst hx
          exact Nat.lt_succ_self _

/-- Under distinct incoming external ids, a well-formed table yields a
`created` list with pairwise-distinct row ids (with the row-classification
facts the induction needs carried along). -/
theorem importStep_fold_created_nodup (table : List TxnRec) (tenant : Nat) (nid0 : Nat)
    (htid : ((table.map (·.id)).Nodup)) (htb : ∀ r ∈ table, r.id < nid0) :
    ∀ (items : List TxnCreate) (st : LoopOut),
      ((items.filterMap (·.external_id)).Nodup) →
      ((st.created.map (·.id)).Nodup) →
      (∀ y ∈ st.created, y.id < st.nextId) →
      nid0 ≤ st.nextId →
      (∀ y ∈ st.created, y.id < nid0 → y ∈ table) →
      (∀ y ∈ st.created, ∀ e, y.external_id = some e → y.id < nid0 →
        e ∉ items.filterMap (·.external_id)) →
      (((items.foldl (importStep table tenant) st).created.map (·.id)).Nodup) ∧
      (∀ y ∈ (items.foldl (importStep table tenant) st).created,
        y.id < (items.foldl (importStep table tenant) st).nextId) ∧
      nid0 ≤ (items.foldl (importStep table tenant) st).nextId ∧
      (∀ y ∈ (items.foldl (importStep table tenant) st).created,
        y.id < nid0 → y ∈ table) := by
  intro items
  induction items with
  | nil => intro st h1 h2 h3 h4 h5 _; exact ⟨h2, h3, h4, h5⟩
  | cons i rest ih =>
    intro st hexts hnd hlt hge htab hnoe
    rw [List.foldl_cons]
    cases hd : dedupItem table tenant i with
    | some x =>
      obtain ⟨hxt, hxten, hxe, hxs⟩ := dedupItem_some_facts hd
      obtain ⟨e, he⟩ := Option.isSome_iff_exists.mp hxs
      have hef : (i :: rest).filterMap (·.external_id) = e :: rest.filterMap (·.external_id) := by
        simp [List.filterMap_cons, he]
      rw [hef] at hexts hnoe
      have hstep : importStep table tenant st i = { st with created := st.created ++ [x] } := by
        rw [importStep, hd]
      rw [hstep]
      apply ih
      · exact hexts.of_cons
      · rw [List.map_append, List.nodup_append]
        refine ⟨hnd, by simp, ?_⟩
        intro a ha hb'
        simp only [List.map_cons, List.map_nil, List.mem_singleton] at hb'
        subst hb'
        rcases List.mem_map.mp ha with ⟨y, hy, hid⟩
        have hyn : y.id < nid0 := by rw [hid]; exact htb x hxt
        have hytab := htab y hy hyn
        have hyx : y = x := List.inj_on_of_nodup_map htid hytab hxt hid
        have := hnoe y hy e (by rw [hyx, hxe, he]) hyn
        exact this (List.mem_cons_self _ _)
      · intro y hy
        dsimp only
        rcases List.mem_append.mp hy with hy | hy
        · exact hlt y hy
        · simp only [List.mem_singleton] at hy
          rw [hy]
          exact lt_of_lt_of_le (htb x hxt) hge
      · exact hge
      · intro y hy
        rcases List.mem_append.mp hy with hy | hy
        · exact htab y hy
        · simp only [List.mem_singleton] at hy
          subst hy
          intro _
          exact hxt
      · intro y hy e' he' hyn
        rcases List.mem_append.mp hy with hy | hy
        · have := hnoe y hy e' he' hyn
          intro hmem
          exact this (List.mem_cons_of_mem _ hmem)
        · simp only [List.mem_singleton] at hy
          subst hy
          have : e' = e := by
            rw [hxe, he] at he'
            exact (Option.some.inj he').symm
          subst this
          exact (List.nodup_cons.mp hexts).1
    | none =>
      have hstep : importStep table tenant st i =
          ⟨st.created ++ [⟨st.nextId, tenant, i.external_id, some i.posted_at,
            i.amount, i.currency, i.description⟩],
           st.newRows ++ [⟨st.nextId, tenant, i.external_id, some i.posted_at,
            i.amount, i.currency, i.description⟩], st.nextId + 1⟩ := by
        rw [importStep, hd]
      rw [hstep]
      have hexts' : (rest.filterMap (·.external_id)).Nodup := by
        cases he : i.external_id with
        | none => rw [show (i :: rest).filterMap (·.external_id) =
            rest.filterMap (·.external_id) by simp [List.filterMap_cons, he]] at hexts
                  exact hexts
        | some e => rw [show (i :: rest).filterMap (·.external_id) =
            e :: rest.filterMap (·.external_id) by simp [List.filterMap_cons, he]] at hexts
                    exact hexts.of_cons
      apply ih
      · exact hexts'
      · rw [List.map_append, List.nodup_append]
        refine ⟨hnd, by simp, ?_⟩
        intro a ha hb'
        simp only [List.map_cons, List.map_nil, List.mem_singleton] at hb'
        subst hb'
        rcases List.mem_map.mp ha with ⟨y, hy, hid⟩
        exact absurd (hid ▸ hlt y hy) (lt_irrefl _)
      · intro y hy
        dsimp only
        rcases List.mem_append.mp hy with hy | hy
        · exact lt_trans (hlt y hy) (Nat.lt_succ_self _)
        · simp only [List.mem_singleton] at hy
          subst hy
          exact Nat.lt_succ_self _
      · exact le_trans hge (Nat.le_succ _)
      · intro y hy hyn
        rcases List.mem_append.mp hy with hy | hy
        · exact htab y hy hyn
        · simp only [List.mem_singleton] at hy
          subst hy
          exact absurd hyn (not_lt.mpr hge)
      · intro y hy e' he' hyn
        rcases List.mem_append.mp hy with hy | hy
        · have := hnoe y hy e' he' hyn
          intro hmem
          apply this
          cases he : i.external_id with
          | none => rw [show (i :: rest).filterMap (·.external_id) =
              rest.filterMap (·.external_id) by simp [List.filterMap_cons, he]]
                    exact hmem
          | some e => rw [show (i :: rest).filterMap (·.external_id) =
              e :: rest.filterMap (·.external_id) by simp [List.filterMap_cons, he]]
                      exact List.mem_cons_of_mem _ hmem
        · simp only [List.mem_singleton] at hy
          subst hy
          exact absurd hyn (not_lt.mpr hge)

theorem nodup_filterMap_inj {α β : Type} {f : α → Option β} :
    ∀ (l : List α), ((l.filterMap f).Nodup) →
      ∀ a ∈ l, ∀ b ∈ l, ∀ e, f a = some e → f b = some e → a = b := by
  intro l
  induction l with
  | nil => intro _ a ha; exact absurd ha (List.not_mem_nil a)
  | cons x xs ih =>
    intro hnd a ha b hb e hfa hfb
    cases hx : f x with
    | some v =>
      simp only [List.filterMap_cons, hx] at hnd
      have hni := (List.nodup_cons.mp hnd).1
      have hnd' := (List.nodup_cons.mp hnd).2
      rcases List.mem_cons.mp ha with ha | ha <;> rcases List.mem_cons.mp hb with hb | hb
      · rw [ha, hb]
      · exfalso
        apply hni
        have hve : v = e := by rw [ha, hx] at hfa; exact Option.some.inj hfa
        rw [hve]
        exact List.mem_filterMap.mpr ⟨b, hb, hfb⟩
      · exfalso
        apply hni
        have hve : v = e := by rw [hb, hx] at hfb; exact Option.some.inj hfb
        rw [hve]
        exact List.mem_filterMap.mpr ⟨a, ha, hfa⟩
      · exact ih hnd' a ha b hb e hfa hfb
    | none =>
      simp only [List.filterMap_cons, hx] at hnd
      rcases List.mem_cons.mp ha with ha | ha
      · rw [ha, hx] at hfa; exact absurd hfa (Option.noConfusion)
      rcases List.mem_cons.mp hb with hb | hb
      · rw [hb, hx] at hfb; exact absurd hfb (Option.noConfusion)
      exact ih hnd a ha b hb e hfa hfb

/-- The pending rows staged by the loop carry pairwise-distinct external ids
when the incoming items do. -/
theorem importStep_fold_newRows_exts (table : List TxnRec) (tenant : Nat) :
    ∀ (items : List TxnCreate) (st : LoopOut),
      ((items.filterMap (·.external_id)).Nodup) →
      ((st.newRows.filterMap (·.external_id)).Nodup) →
      (∀ e ∈ st.newRows.filterMap (·.external_id), e ∉ items.filterMap (·.external_id)) →
      (((items.foldl (importStep table tenant) st).newRows.filterMap
        (·.external_id)).Nodup) := by
  intro items
  induction items with
  | nil => intro st _ h _; exact h
  | cons i rest ih =>
    intro st hexts hst hdis
    rw [List.foldl_cons]
    cases he : i.external_id with
    | none =>
      have hef : (i :: rest).filterMap (·.external_id) = rest.filterMap (·.external_id) := by
        simp [List.filterMap_cons, he]
      rw [hef] at hexts hdis
      apply ih _ hexts
      · rw [importStep]
        cases hd : dedupItem table tenant i with
        | some ex => exact hst
        | none =>
          dsimp only
          rw [List.filterMap_append]
          simpa [he] using hst
      · intro e hmem
        rw [importStep] at hmem
        cases hd : dedupItem table tenant i with
        | some ex => rw [hd] at hmem; exact hdis e hmem
        | none =>
          rw [hd] at hmem
          dsimp only at hmem
          rw [List.filterMap_append] at hmem
          have : e ∈ st.newRows.filterMap (·.external_id) := by
            simpa [he] using hmem
          exact hdis e this
    | some v =>
      have hef : (i :: rest).filterMap (·.external_id) =
          v :: rest.filterMap (·.external_id) := by
        simp [List.filterMap_cons, he]
      rw [hef] at hexts hdis
      apply ih _ hexts.of_cons
      · rw [importStep]
        cases hd : dedupItem table tenant i with
        | some ex => exact hst
        | none =>
          dsimp only
          rw [List.filterMap_append]
          have hsing : ([(⟨st.nextId, tenant, i.external_id, some i.posted_at,
              i.amount, i.currency, i.description⟩ : TxnRec)].filterMap
                (·.external_id)) = [v] := by
            simp [he]
          rw [hsing]
          rw [List.nodup_append]
          refine ⟨hst, by simp, ?_⟩
          intro a hafm hb'
          simp only [List.mem_singleton] at hb'
          rw [hb'] at hafm
          exact hdis v hafm (List.mem_cons_self _ _)
      · intro e hmem
        rw [importStep] at hmem
        cases hd : dedupItem table tenant i with
        | some ex =>
          rw [hd] at hmem
          have := hdis e hmem
          intro hmem'
          exact this (List.mem_cons_of_mem _ hmem')
        | none =>
          rw [hd] at hmem
          dsimp only at hmem
          rw [List.filterMap_append] at hmem
          have hsing : ([(⟨st.nextId, tenant, i.external_id, some i.posted_at,
              i.amount, i.currency, i.description⟩ : TxnRec)].filterMap
                (·.external_id)) = [v] := by
            simp [he]
          rw [hsing] at hmem
          rcases List.mem_append.mp hmem with hmem | hmem
          · have := hdis e hmem
            intro hmem'
            exact this (List.mem_cons_of_mem _ hmem')
          · simp only [List.mem_singleton] at hmem
            rw [hmem]
            exact (List.nodup_cons.mp hexts).1

/-- When the incoming items carry pairwise-distinct external ids, the staged
rows never violate the unique index `ix_tenant_external_id`: each staged row's
key was absent from the table (that is why it was staged) and no two staged
rows share one. -/
theorem extConflict_importLoop (table : List TxnRec) (tenant nid0 : Nat)
    (items : List TxnCreate)
    (hexts : ((items.filterMap (·.external_id)).Nodup)) :
    extConflict table (importLoop table tenant nid0 items).newRows = false := by
  have hnodup : (((importLoop table tenant nid0 items).newRows.filterMap
      (·.external_id)).Nodup) := by
    apply importStep_fold_newRows_exts table tenant items ⟨[], [], nid0⟩ hexts
    · exact List.nodup_nil
    · intro e he
      exact absurd he (List.not_mem_nil e)
  have hidnd : (((importLoop table tenant nid0 items).newRows.map (·.id)).Nodup) := by
    apply importStep_fold_newRows_nodup table tenant items ⟨[], [], nid0⟩
    · exact List.nodup_nil
    · intro x hx
      exact absurd hx (List.not_mem_nil x)
  rw [extConflict, List.any_eq_false]
  intro r hr
  rcases importStep_fold_newRows_mem table tenant items ⟨[], [], nid0⟩ r hr with
    h0 | ⟨i, _, hd, hrten, hext⟩
  · exact absurd h0 (List.not_mem_nil r)
  cases hre : r.external_id with
  | none => simp [hre]
  | some e =>
    have hie : i.external_id = some e := by rw [← hext, hre]
    have hnone := dedupItem_none_facts hd hie
    intro habs
    simp only [hre, Option.isSome_some, Bool.true_and, Bool.or_eq_true, List.any_eq_true,
      decide_eq_true_eq] at habs
    rcases habs with ⟨t, ht, hten, hteq⟩ | ⟨t, ht, hne, _, hteq⟩
    · exact hnone t ht ⟨hten.trans hrten, hteq⟩
    · have : t = r := nodup_filterMap_inj _ hnodup t ht r hr e hteq hre
      exact hne (by rw [this])

/-- A keyless import either fails on the unique index or commits the loop's
output — there is no other outcome. -/
theorem import_none_key_cases (db : DB) (tenant : Nat) (items : List TxnCreate) :
    importTransactions db tenant items none = Except.error ServiceError.persistence ∨
    importTransactions db tenant items none =
      Except.ok
        ({ db with
            transactions := db.transactions ++
              (importLoop db.transactions tenant db.nextTxnId items).newRows,
            nextTxnId := (importLoop db.transactions tenant db.nextTxnId items).nextId },
         (importLoop db.transactions tenant db.nextTxnId items).created, false) := by
  by_cases hc : ((importLoop db.transactions tenant db.nextTxnId items).newRows ≠ [] ∧
      extConflict db.transactions
        (importLoop db.transactions tenant db.nextTxnId items).newRows = true)
  · exact Or.inl (import_none_key_conflict db tenant items hc.1 hc.2)
  · refine Or.inr (import_none_key db tenant items ?_)
    intro hne
    cases hb : extConflict db.transactions
        (importLoop db.transactions tenant db.nextTxnId items).newRows
    · rfl
    · exact absurd ⟨hne, hb⟩ hc

/-- Spec §4.4, C9: the natural-key dedup claim fails for two fresh items of one
batch that share an external id: the dedup query sees only the committed table,
so both are staged as new rows and the commit dies on `ix_tenant_external_id` —
they do not resolve to one stored id. -/
theorem C9_counterexample :
    cItemX.external_id = some "X" ∧
    importTransactions cDBe 1 [cItemX, cItemX] none =
      Except.error ServiceError.persistence := by
  constructor
  · rfl
  · rfl

/-- Spec §4.4, C9 (amended): (i) when a committed row with the incoming
`(tenant, external_id)` exists (and is the only one), every returned row and
every stored row carrying that key is that committed row — no duplicate is
inserted; (ii) two successive single-item keyless imports of one item with a
non-empty external id both succeed and resolve to the same returned row list,
inserting nothing the second time; (iii) but two items of a single batch
sharing an external id absent from the committed table make the whole call
fail with the persistence error instead of resolving to one id. -/
theorem C9_natural_key_dedup :
    (∀ (db : DB) (tenant : Nat) (items : List TxnCreate) (x : DB × List TxnRec × Bool)
       (t : TxnRec) (e : String),
       importTransactions db tenant items none = Except.ok x →
       t ∈ db.transactions → t.tenant_id = tenant → t.external_id = some e →
       (∀ t' ∈ db.transactions, t'.tenant_id = tenant → t'.external_id = some e → t' = t) →
       (∀ r ∈ x.2.1, r.tenant_id = tenant → r.external_id = some e → r = t) ∧
       (∀ r ∈ x.1.transactions, r.tenant_id = tenant → r.external_id = some e → r = t)) ∧
    (∀ (db : DB) (tenant : Nat) (i : TxnCreate) (e : String),
       i.external_id = some e →
       ∃ db1 rows db2,
         importTransactions db tenant [i] none = Except.ok (db1, rows, false) ∧
         importTransactions db1 tenant [i] none = Except.ok (db2, rows, false) ∧
         db2.transactions = db1.transactions ∧ rows.length = 1) ∧
    (∀ (db : DB) (tenant : Nat) (i j : TxnCreate) (e : String),
       i.external_id = some e → j.external_id = some e →
       dedupItem db.transactions tenant i = none →
       importTransactions db tenant [i, j] none =
         Except.error ServiceError.persistence) := by
  refine ⟨?_, ?_, ?_⟩
  · -- (i) an existing natural key is reused, never duplicated
    intro db tenant items x t e himp ht htt hte huniq
    rcases import_none_key_cases db tenant items with hcase | hcase
    · rw [hcase] at himp
      exact Except.noConfusion himp
    · rw [hcase] at himp
      have hx := Except.ok.inj himp
      rw [← hx]
      constructor
      · intro r hr hrt hre
        rcases importStep_fold_created_mem db.transactions tenant items
            ⟨[], [], db.nextTxnId⟩ r hr with h0 | ⟨i, _, hd⟩ | hnr
        · exact absurd h0 (List.not_mem_nil r)
        · obtain ⟨hrtab, _, _, _⟩ := dedupItem_some_facts hd
          exact huniq r hrtab hrt hre
        · rcases importStep_fold_newRows_mem db.transactions tenant items
              ⟨[], [], db.nextTxnId⟩ r hnr with h0 | ⟨i, _, hd, _, hrex⟩
          · exact absurd h0 (List.not_mem_nil r)
          · have hie : i.external_id = some e := by rw [← hrex, hre]
            exact absurd ⟨htt, hte⟩ (dedupItem_none_facts hd hie t ht)
      · intro r hr hrt hre
        rcases List.mem_append.mp hr with hr | hr
        · exact huniq r hr hrt hre
        · rcases importStep_fold_newRows_mem db.transactions tenant items
              ⟨[], [], db.nextTxnId⟩ r hr with h0 | ⟨i, _, hd, _, hrex⟩
          · exact absurd h0 (List.not_mem_nil r)
          · have hie : i.external_id = some e := by rw [← hrex, hre]
            exact absurd ⟨htt, hte⟩ (dedupItem_none_facts hd hie t ht)
  · -- (ii) importing one item twice resolves to one row
    intro db tenant i e hie
    cases hd : dedupItem db.transactions tenant i with
    | some t =>
      have hlo : importLoop db.transactions tenant db.nextTxnId [i] =
          ⟨[t], [], db.nextTxnId⟩ := by
        rw [importLoop, List.foldl_cons, List.foldl_nil, importStep, hd]
        dsimp only
        rw [List.nil_append]
      have h1 := import_none_key db tenant [i] (by rw [hlo]; intro hne; exact absurd rfl hne)
      rw [hlo] at h1
      have hd1 : dedupItem (db.transactions ++ []) tenant i = some t := by
        rw [List.append_nil]; exact hd
      have hlo1 : importLoop (db.transactions ++ []) tenant db.nextTxnId [i] =
          ⟨[t], [], db.nextTxnId⟩ := by
        rw [importLoop, List.foldl_cons, List.foldl_nil, importStep, hd1]
        dsimp only
        rw [List.nil_append]
      have h2 := import_none_key
        { db with transactions := db.transactions ++ [], nextTxnId := db.nextTxnId }
        tenant [i] (by dsimp only; rw [hlo1]; intro hne; exact absurd rfl hne)
      dsimp only at h2
      rw [hlo1] at h2
      refine ⟨_, [t], _, h1, h2, ?_, rfl⟩
      dsimp only
      rw [List.append_nil]
    | none =>
      have hfind : db.transactions.find?
          (fun t => decide (t.tenant_id = tenant ∧ t.external_id = some e)) = none := by
        have h0 := hd
        rw [dedupItem, hie] at h0
        exact h0
      have hnone := dedupItem_none_facts hd hie
      have hlo : importLoop db.transactions tenant db.nextTxnId [i] =
          ⟨[⟨db.nextTxnId, tenant, i.external_id, some i.posted_at,
              i.amount, i.currency, i.description⟩],
           [⟨db.nextTxnId, tenant, i.external_id, some i.posted_at,
              i.amount, i.currency, i.description⟩], db.nextTxnId + 1⟩ := by
        rw [importLoop, List.foldl_cons, List.foldl_nil, importStep, hd]
        dsimp only
        rw [List.nil_append]
      have hconf : extConflict db.transactions
          [⟨db.nextTxnId, tenant, i.external_id, some i.posted_at,
              i.amount, i.currency, i.description⟩] = false := by
        rw [extConflict, List.any_eq_false]
        intro x hx
        simp only [List.mem_singleton] at hx
        subst hx
        intro habs
        simp only [hie, Option.isSome_some, Bool.true_and, Bool.or_eq_true,
          List.any_eq_true, decide_eq_true_eq] at habs
        rcases habs with ⟨t, ht, htt, hteq⟩ | ⟨t, ht, hne, _, _⟩
        · exact hnone t ht ⟨htt, hteq⟩
        · simp only [List.mem_singleton] at ht
          rw [ht] at hne
          exact hne rfl
      have h1 := import_none_key db tenant [i]
        (by rw [hlo]; intro _; exact hconf)
      rw [hlo] at h1
      have hd1 : dedupItem (db.transactions ++
          [⟨db.nextTxnId, tenant, i.external_id, some i.posted_at,
              i.amount, i.currency, i.description⟩]) tenant i =
          some ⟨db.nextTxnId, tenant, i.external_id, some i.posted_at,
              i.amount, i.currency, i.description⟩ := by
        rw [dedupItem, hie]
        show (db.transactions ++
            [(⟨db.nextTxnId, tenant, some e, some i.posted_at,
                i.amount, i.currency, i.description⟩ : TxnRec)]).find?
              (fun t => decide (t.tenant_id = tenant ∧ t.external_id = some e)) =
          some (⟨db.nextTxnId, tenant, some e, some i.posted_at,
                i.amount, i.currency, i.description⟩ : TxnRec)
        rw [List.find?_append, hfind]
        simp
      have hlo1 : importLoop (db.transactions ++
          [⟨db.nextTxnId, tenant, i.external_id, some i.posted_at,
              i.amount, i.currency, i.description⟩]) tenant (db.nextTxnId + 1) [i] =
          ⟨[⟨db.nextTxnId, tenant, i.external_id, some i.posted_at,
              i.amount, i.currency, i.description⟩], [], db.nextTxnId + 1⟩ := by
        rw [importLoop, List.foldl_cons, List.foldl_nil, importStep, hd1]
        dsimp only
        rw [List.nil_append]
      have h2 := import_none_key
        { db with
            transactions := db.transactions ++
              [⟨db.nextTxnId, tenant, i.external_id, some i.posted_at,
                  i.amount, i.currency, i.description⟩],
            nextTxnId := db.nextTxnId + 1 }
        tenant [i] (by dsimp only; rw [hlo1]; intro hne; exact absurd rfl hne)
      dsimp only at h2
      rw [hlo1] at h2
      refine ⟨_, _, _, h1, h2, ?_, rfl⟩
      dsimp only
      rw [List.append_nil]
  · -- (iii) two fresh items sharing an external id break the unique index
    intro db tenant i j e hie hje hd
    have hdj : dedupItem db.transactions tenant j = none := by
      rw [dedupItem, hje]
      rw [dedupItem, hie] at hd
      exact hd
    have hstep1 : importStep db.transactions tenant ⟨[], [], db.nextTxnId⟩ i =
        ⟨[⟨db.nextTxnId, tenant, i.external_id, some i.posted_at,
            i.amount, i.currency, i.description⟩],
         [⟨db.nextTxnId, tenant, i.external_id, some i.posted_at,
            i.amount, i.currency, i.description⟩], db.nextTxnId + 1⟩ := by
      rw [importStep, hd]
      dsimp only
      rw [List.nil_append]
    have hlo : importLoop db.transactions tenant db.nextTxnId [i, j] =
        ⟨[⟨db.nextTxnId, tenant, i.external_id, some i.posted_at,
            i.amount, i.currency, i.description⟩,
          ⟨db.nextTxnId + 1, tenant, j.external_id, some j.posted_at,
            j.amount, j.currency, j.description⟩],
         [⟨db.nextTxnId, tenant, i.external_id, some i.posted_at,
            i.amount, i.currency, i.description⟩,
          ⟨db.nextTxnId + 1, tenant, j.external_id, some j.posted_at,
            j.amount, j.currency, j.description⟩], db.nextTxnId + 1 + 1⟩ := by
      rw [importLoop, List.foldl_cons, hstep1, List.foldl_cons, List.foldl_nil,
        importStep, hdj]
      rfl
    have hcf : extConflict db.transactions
        [⟨db.nextTxnId, tenant, i.external_id, some i.posted_at,
            i.amount, i.currency, i.description⟩,
         ⟨db.nextTxnId + 1, tenant, j.external_id, some j.posted_at,
            j.amount, j.currency, j.description⟩] = true := by
      rw [extConflict]
      apply List.any_eq_true.mpr
      refine ⟨⟨db.nextTxnId, tenant, i.external_id, some i.posted_at,
          i.amount, i.currency, i.description⟩, List.mem_cons_self _ _, ?_⟩
      dsimp only
      rw [hie]
      simp only [Option.isSome_some, Bool.true_and, Bool.or_eq_true]
      right
      apply List.any_eq_true.mpr
      refine ⟨⟨db.nextTxnId + 1, tenant, j.external_id, some j.posted_at,
          j.amount, j.currency, j.description⟩,
        List.mem_cons_of_mem _ (List.mem_cons_self _ _), ?_⟩
      apply decide_eq_true
      refine ⟨by dsimp only; omega, rfl, ?_⟩
      dsimp only
      rw [hje]
    apply import_none_key_conflict db tenant [i, j]
    · rw [hlo]
      intro habs
      exact List.noConfusion habs
    · rw [hlo]
      exact hcf

/-- Concrete run of the amended C9 statement: the committed row with external
id "X" is reused by `import` on the batch `[cItemX]`, two successive
single-item imports agree, and the fresh duplicate pair fails. -/
theorem C9_natural_key_dedup_witness :
    ((∀ r ∈ [cTxX], r.tenant_id = 1 → r.external_id = some "X" → r = cTxX) ∧
     (∀ r ∈ cDBx.transactions, r.tenant_id = 1 → r.external_id = some "X" → r = cTxX)) ∧
    (∃ db1 rows db2,
       importTransactions cDBx 1 [cItemX] none = Except.ok (db1, rows, false) ∧
       importTransactions db1 1 [cItemX] none = Except.ok (db2, rows, false) ∧
       db2.transactions = db1.transactions ∧ rows.length = 1) ∧
    importTransactions cDBe 1 [cItemX, cItemX] none =
      Except.error ServiceError.persistence := by
  refine ⟨?_, ?_, ?_⟩
  · exact C9_natural_key_dedup.1 cDBx 1 [cItemX] (cDBx, [cTxX], false) cTxX "X"
      rfl (by decide) rfl rfl (by decide)
  · exact C9_natural_key_dedup.2.1 cDBx 1 cItemX "X" rfl
  · exact C9_natural_key_dedup.2.2 cDBe 1 cItemX cItemX "X" rfl rfl rfl

theorem getPayloadHash_update (db : DB) (X : List TxnRec) (n : Nat) (t : Nat)
    (k : String) :
    getPayloadHash { db with transactions := X, nextTxnId := n } t k =
      getPayloadHash db t k := rfl

/-- Filtering a well-formed table by a duplicate-free id list whose every id
names a row of the right tenant returns exactly those ids, as a permutation. -/
theorem filter_by_ids_perm (table : List TxnRec) (tenant : Nat) (ids : List Nat)
    (htid : ((table.map (·.id)).Nodup)) (hids : ids.Nodup)
    (hmem : ∀ n ∈ ids, ∃ r ∈ table, r.id = n ∧ r.tenant_id = tenant) :
    (((table.filter fun t => ids.contains t.id && decide (t.tenant_id = tenant)).map
      (·.id)).Perm ids) := by
  apply List.perm_of_nodup_nodup_toFinset_eq
  · have hsub : (table.filter fun t =>
        ids.contains t.id && decide (t.tenant_id = tenant)).Sublist table :=
      List.filter_sublist table
    exact htid.sublist (hsub.map fun x => x.id)
  · exact hids
  · ext n
    simp only [List.mem_toFinset, List.mem_map, List.mem_filter, Bool.and_eq_true,
      decide_eq_true_eq, List.contains_iff_exists_mem_beq, beq_iff_eq]
    constructor
    · rintro ⟨t, ⟨htmem, ⟨m, hm, hmid⟩, _⟩, rfl⟩
      rw [← hmid] at hm
      exact hm
    · intro hn
      obtain ⟨r, hr, hrid, hrt⟩ := hmem n hn
      exact ⟨r, ⟨hr, ⟨r.id, by rw [hrid]; exact hn, rfl⟩, hrt⟩, hrid⟩

/-- An empty keyed batch under a fresh key: nothing inserted, an empty result
recorded, `replayed = false`. -/
theorem import_empty_fresh (db : DB) (tenant : Nat) (k : String)
    (hkey : getPayloadHash db tenant k = none) :
    importTransactions db tenant [] (some k) =
      Except.ok
        (storeResult
          { db with
            transactions := db.transactions ++ [],
            nextTxnId := db.nextTxnId } tenant k (hashPayload []) [], [], false) := by
  have hres := getResult_eq_none hkey
  rw [importTransactions]
  simp only [hkey, hres]
  rw [if_neg (by simp)]
  rw [replayCheck, hres]
  simp only []
  rw [if_neg (by intro hc; exact hc.2 rfl)]
  rw [if_neg (by intro hc; exact hc.1 rfl)]
  rw [if_neg (fun hc => hc rfl)]
  rw [if_pos (by rw [getPayloadHash_update, hkey]; rfl)]
  rfl

/-- An empty keyed batch whose key already stores the empty batch: nothing
happens and `replayed = false` — the stored empty result never short-circuits. -/
theorem import_empty_replayed (db : DB) (tenant : Nat) (k : String)
    (hhash : getPayloadHash db tenant k = some (hashPayload []))
    (hres : getResult db tenant k = some []) :
    importTransactions db tenant [] (some k) =
      Except.ok
        ({ db with
           transactions := db.transactions ++ [],
           nextTxnId := db.nextTxnId }, [], false) := by
  rw [importTransactions]
  simp only [hhash]
  rw [if_neg (by simp)]
  rw [replayCheck, hres]
  simp only []
  rw [if_pos trivial]
  simp only []
  rw [if_neg (by intro hc; exact hc.2 rfl)]
  rw [if_neg (by intro hc; exact hc.1 rfl)]
  rw [if_neg (fun hc => hc rfl)]
  rw [if_neg (by rw [getPayloadHash_update, hhash]; simp)]
  rfl

/-- Every row the loop hands back lives in the committed table or among the
staged rows, and belongs to the tenant. -/
theorem created_target (db : DB) (tenant : Nat) (items : List TxnCreate) :
    ∀ r ∈ (importLoop db.transactions tenant db.nextTxnId items).created,
      (r ∈ db.transactions ∨
        r ∈ (importLoop db.transactions tenant db.nextTxnId items).newRows) ∧
        r.tenant_id = tenant := by
  intro r hr
  rw [importLoop] at hr
  rcases importStep_fold_created_mem db.transactions tenant items
      ⟨[], [], db.nextTxnId⟩ r hr with h0 | ⟨i, _, hd⟩ | hnr
  · exact absurd h0 (List.not_mem_nil r)
  · obtain ⟨ht, htt, _, _⟩ := dedupItem_some_facts hd
    exact ⟨Or.inl ht, htt⟩
  · rcases importStep_fold_newRows_mem db.transactions tenant items
        ⟨[], [], db.nextTxnId⟩ r hnr with h0 | ⟨i, _, _, htt, _⟩
    · exact absurd h0 (List.not_mem_nil r)
    · exact ⟨Or.inr (by rw [importLoop]; exact hnr), htt⟩

/-- Under a well-formed table and distinct incoming external ids, the returned
rows carry pairwise-distinct ids. -/
theorem created_ids_nodup (db : DB) (tenant : Nat) (items : List TxnCreate)
    (htid : ((db.transactions.map (·.id)).Nodup))
    (htb : ∀ r ∈ db.transactions, r.id < db.nextTxnId)
    (hexts : ((items.filterMap (·.external_id)).Nodup)) :
    (((importLoop db.transactions tenant db.nextTxnId items).created.map
      (·.id)).Nodup) := by
  rw [importLoop]
  refine (importStep_fold_created_nodup db.transactions tenant db.nextTxnId htid htb items
    ⟨[], [], db.nextTxnId⟩ hexts (by simp) ?_ (le_refl _) ?_ ?_).1
  · intro y hy
    exact absurd hy (List.not_mem_nil y)
  · intro y hy
    exact absurd hy (List.not_mem_nil y)
  · intro y hy
    exact absurd hy (List.not_mem_nil y)

/-- Committing the staged rows keeps the table's ids pairwise distinct. -/
theorem committed_ids_nodup (db : DB) (tenant : Nat) (items : List TxnCreate)
    (htid : ((db.transactions.map (·.id)).Nodup))
    (htb : ∀ r ∈ db.transactions, r.id < db.nextTxnId) :
    (((db.transactions ++
        (importLoop db.transactions tenant db.nextTxnId items).newRows).map
      (·.id)).Nodup) := by
  rw [List.map_append, List.nodup_append]
  refine ⟨htid, ?_, ?_⟩
  · rw [importLoop]
    apply importStep_fold_newRows_nodup db.transactions tenant items
      ⟨[], [], db.nextTxnId⟩ (by simp)
    intro x hx
    exact absurd hx (List.not_mem_nil x)
  · intro a ha hb
    rcases List.mem_map.mp ha with ⟨r, hr, hrid⟩
    rcases List.mem_map.mp hb with ⟨s, hs, hsid⟩
    have h1 : r.id < db.nextTxnId := htb r hr
    have h2 : db.nextTxnId ≤ s.id := by
      rw [importLoop] at hs
      apply importStep_fold_newRows_ge db.transactions tenant db.nextTxnId items
        ⟨[], [], db.nextTxnId⟩ (le_refl _) ?_ s hs
      intro x hx
      exact absurd hx (List.not_mem_nil x)
    rw [hrid] at h1
    rw [hsid] at h2
    omega

/-- Spec §4.4/§8, C2: two keyed calls with identical payload need not return
identical transaction id lists.  Concretely: the batch `c2items` repeats a
deduplicating item, so the first call stores the id list `[1, 1, 5]`; on the
second call the stored list no longer resolves (two rows for three ids), the
replay is skipped, the loop runs again, inserts a second copy of the
no-external-id item as id 6 and returns `[1, 1, 6]`. -/
theorem C2_counterexample :
    importTransactions cDB2 1 c2items (some "K2") =
      Except.ok (cDB2b, [cTxA, cTxA, cTxN5], false) ∧
    importTransactions cDB2b 1 c2items (some "K2") =
      Except.ok (cDB2c, [cTxA, cTxA, cTxN6], false) ∧
    [cTxA, cTxA, cTxN5].map (·.id) ≠ [cTxA, cTxA, cTxN6].map (·.id) := by
  refine ⟨rfl, rfl, by decide⟩

/-- Spec §4.4/§8, C2 (amended): (i) a prior record with a different stored
hash fails the call with Conflict; (ii) a prior record with the same hash
whose stored id list is non-empty and resolves to equally many tenant rows
short-circuits, returning those rows with `replayed = true` and an unchanged
store; (iii) under a fresh key, pairwise-distinct incoming external ids and a
well-formed table, two successive calls with identical payload both succeed
and return the same transaction ids up to order (a permutation — the replay
reads the rows back in table order, and the general case of the claim's
"identical id lists" fails, see the counterexample). -/
theorem C2_idempotent_import :
    (∀ (db : DB) (tenant : Nat) (items : List TxnCreate) (k : String)
       (h : List TxnCreate),
       getPayloadHash db tenant k = some h → h ≠ hashPayload items →
       importTransactions db tenant items (some k) =
         Except.error ServiceError.conflict) ∧
    (∀ (db : DB) (tenant : Nat) (items : List TxnCreate) (k : String)
       (ids : List Nat),
       getPayloadHash db tenant k = some (hashPayload items) →
       getResult db tenant k = some ids → ids ≠ [] →
       (db.transactions.filter fun t =>
         ids.contains t.id && decide (t.tenant_id = tenant)).length = ids.length →
       importTransactions db tenant items (some k) =
         Except.ok
           (db, db.transactions.filter fun t =>
             ids.contains t.id && decide (t.tenant_id = tenant), true)) ∧
    (∀ (db : DB) (tenant : Nat) (items : List TxnCreate) (k : String),
       getPayloadHash db tenant k = none →
       ((items.filterMap (·.external_id)).Nodup) →
       ((db.transactions.map (·.id)).Nodup) →
       (∀ r ∈ db.transactions, r.id < db.nextTxnId) →
       ∃ db1 rows1 f1 db2 rows2 f2,
         importTransactions db tenant items (some k) = Except.ok (db1, rows1, f1) ∧
         importTransactions db1 tenant items (some k) = Except.ok (db2, rows2, f2) ∧
         ((rows2.map (·.id)).Perm (rows1.map (·.id)))) := by
  refine ⟨import_conflict, import_replay, ?_⟩
  intro db tenant items k hkey hexts htid htb
  by_cases hitems : items = []
  · subst hitems
    have h1 := import_empty_fresh db tenant k hkey
    have hk1 : getPayloadHash
        { db with
          transactions := db.transactions ++ [],
          nextTxnId := db.nextTxnId } tenant k = none := by
      rw [getPayloadHash_update]
      exact hkey
    have h2h := getPayloadHash_storeResult_fresh _ tenant k (hashPayload []) [] hk1
    have h2r := getResult_storeResult_fresh _ tenant k (hashPayload []) [] hk1
    have h2 := import_empty_replayed
      (storeResult
        { db with
          transactions := db.transactions ++ [],
          nextTxnId := db.nextTxnId } tenant k (hashPayload []) []) tenant k h2h h2r
    exact ⟨_, _, _, _, _, _, h1, h2, List.Perm.refl _⟩
  · have hcr : (importLoop db.transactions tenant db.nextTxnId items).created ≠ [] := by
      intro habs
      apply hitems
      have := importStep_fold_created_len db.transactions tenant items
        ⟨[], [], db.nextTxnId⟩
      rw [importLoop] at habs
      rw [habs] at this
      simp at this
      exact List.eq_nil_of_length_eq_zero this.symm
    have hnd := created_ids_nodup db tenant items htid htb hexts
    have hne1 : (importLoop db.transactions tenant db.nextTxnId items).created.map
        (·.id) ≠ [] := by
      intro habs
      exact hcr (List.map_eq_nil.mp habs)
    by_cases hnew : (importLoop db.transactions tenant db.nextTxnId items).newRows = []
    · have h1 := import_all_deduped db tenant items k hkey hnew hcr
      have hmem : ∀ n ∈ (importLoop db.transactions tenant db.nextTxnId items).created.map
          (·.id), ∃ r ∈ db.transactions, r.id = n ∧ r.tenant_id = tenant := by
        intro n hn
        rcases List.mem_map.mp hn with ⟨y, hy, hyid⟩
        rcases created_target db tenant items y hy with ⟨hor | hor, hten⟩
        · exact ⟨y, hor, hyid, hten⟩
        · rw [hnew] at hor
          exact absurd hor (List.not_mem_nil y)
      have hperm := filter_by_ids_perm db.transactions tenant
        ((importLoop db.transactions tenant db.nextTxnId items).created.map (·.id))
        htid hnd hmem
      have h2h := getPayloadHash_storeResult_fresh db tenant k (hashPayload items)
        ((importLoop db.transactions tenant db.nextTxnId items).created.map (·.id)) hkey
      have h2r := getResult_storeResult_fresh db tenant k (hashPayload items)
        ((importLoop db.transactions tenant db.nextTxnId items).created.map (·.id)) hkey
      have hlen0 := hperm.length_eq
      rw [List.length_map] at hlen0
      have hlen : ((storeResult db tenant k (hashPayload items)
          ((importLoop db.transactions tenant db.nextTxnId items).created.map
            (·.id))).transactions.filter fun t =>
          ((importLoop db.transactions tenant db.nextTxnId items).created.map
            (·.id)).contains t.id && decide (t.tenant_id = tenant)).length =
          ((importLoop db.transactions tenant db.nextTxnId items).created.map
            (·.id)).length := by
        rw [storeResult_transactions]
        exact hlen0
      have h2 := import_replay (storeResult db tenant k (hashPayload items)
          ((importLoop db.transactions tenant db.nextTxnId items).created.map (·.id)))
        tenant items k
        ((importLoop db.transactions tenant db.nextTxnId items).created.map (·.id))
        h2h h2r hne1 hlen
      refine ⟨_, _, _, _, _, _, h1, h2, ?_⟩
      rw [storeResult_transactions]
      exact hperm
    · have hconf := extConflict_importLoop db.transactions tenant db.nextTxnId items hexts
      have h1 := import_with_new db tenant items k hkey hnew hconf
      have htid' := committed_ids_nodup db tenant items htid htb
      have hmem : ∀ n ∈ (importLoop db.transactions tenant db.nextTxnId items).created.map
          (·.id), ∃ r ∈ db.transactions ++
            (importLoop db.transactions tenant db.nextTxnId items).newRows,
            r.id = n ∧ r.tenant_id = tenant := by
        intro n hn
        rcases List.mem_map.mp hn with ⟨y, hy, hyid⟩
        rcases created_target db tenant items y hy with ⟨hor | hor, hten⟩
        · exact ⟨y, List.mem_append.mpr (Or.inl hor), hyid, hten⟩
        · exact ⟨y, List.mem_append.mpr (Or.inr hor), hyid, hten⟩
      have hperm := filter_by_ids_perm
        (db.transactions ++ (importLoop db.transactions tenant db.nextTxnId items).newRows)
        tenant
        ((importLoop db.transactions tenant db.nextTxnId items).created.map (·.id))
        htid' hnd hmem
      have hk1 : getPayloadHash
          { db with
            transactions := db.transactions ++
              (importLoop db.transactions tenant db.nextTxnId items).newRows,
            nextTxnId := (importLoop db.transactions tenant db.nextTxnId items).nextId }
          tenant k = none := by
        rw [getPayloadHash_update]
        exact hkey
      have h2h := getPayloadHash_storeResult_fresh
        { db with
          transactions := db.transactions ++
            (importLoop db.transactions tenant db.nextTxnId items).newRows,
          nextTxnId := (importLoop db.transactions tenant db.nextTxnId items).nextId }
        tenant k (hashPayload items)
        ((importLoop db.transactions tenant db.nextTxnId items).created.map (·.id)) hk1
      have h2r := getResult_storeResult_fresh
        { db with
          transactions := db.transactions ++
            (importLoop db.transactions tenant db.nextTxnId items).newRows,
          nextTxnId := (importLoop db.transactions tenant db.nextTxnId items).nextId }
        tenant k (hashPayload items)
        ((importLoop db.transactions tenant db.nextTxnId items).created.map (·.id)) hk1
      have hlen0 := hperm.length_eq
      rw [List.length_map] at hlen0
      have hlen : ((storeResult
          { db with
            transactions := db.transactions ++
              (importLoop db.transactions tenant db.nextTxnId items).newRows,
            nextTxnId := (importLoop db.transactions tenant db.nextTxnId items).nextId }
          tenant k (hashPayload items)
          ((importLoop db.transactions tenant db.nextTxnId items).created.map
            (·.id))).transactions.filter fun t =>
          ((importLoop db.transactions tenant db.nextTxnId items).created.map
            (·.id)).contains t.id && decide (t.tenant_id = tenant)).length =
          ((importLoop db.transactions tenant db.nextTxnId items).created.map
            (·.id)).length := by
        rw [storeResult_transactions]
        exact hlen0
      have h2 := import_replay (storeResult
          { db with
            transactions := db.transactions ++
              (importLoop db.transactions tenant db.nextTxnId items).newRows,
            nextTxnId := (importLoop db.transactions tenant db.nextTxnId items).nextId }
          tenant k (hashPayload items)
          ((importLoop db.transactions tenant db.nextTxnId items).created.map (·.id)))
        tenant items k
        ((importLoop db.transactions tenant db.nextTxnId items).created.map (·.id))
        h2h h2r hne1 hlen
      refine ⟨_, _, _, _, _, _, h1, h2, ?_⟩
      rw [storeResult_transactions]
      exact hperm

/-- Concrete run of the amended C2 statement: a conflicting empty batch under
the key of `cDB2b`, a clean single-row replay from `cDBr`, and a fresh-key
double call on `cDB2` whose id lists agree up to order. -/
theorem C2_idempotent_import_witness :
    importTransactions cDB2b 1 [] (some "K2") = Except.error ServiceError.conflict ∧
    importTransactions cDBr 1 [c2itemA] (some "KR") =
      Except.ok
        (cDBr, cDBr.transactions.filter fun t =>
          ([1] : List Nat).contains t.id && decide (t.tenant_id = 1), true) ∧
    (∃ db1 rows1 f1 db2 rows2 f2,
       importTransactions cDB2 1 [c2itemA, c2itemN] (some "K2") =
         Except.ok (db1, rows1, f1) ∧
       importTransactions db1 1 [c2itemA, c2itemN] (some "K2") =
         Except.ok (db2, rows2, f2) ∧
       ((rows2.map (·.id)).Perm (rows1.map (·.id)))) := by
  refine ⟨C2_idempotent_import.1 cDB2b 1 [] "K2" c2items rfl (by decide),
          C2_idempotent_import.2.1 cDBr 1 [c2itemA] "KR" [1] rfl rfl (by decide) rfl,
          C2_idempotent_import.2.2 cDB2 1 [c2itemA, c2itemN] "K2" rfl (by decide)
            (by decide) (by decide)⟩

end FlowRMS
